import Mathlib

/-!
Verification of the `patron` randomized bounded falsifier.

We give a shallow embedding of the core of the program:
`src/constraints.rs` (conjunction splitting, constraint-graph
construction, connected components, constraint clusters),
`src/random.rs` (input sampling, rejection sampling, the search loop and
witness recording) and the parts of `src/main.rs` that the claims touch.

Interned `ExprRef` handles of the external IR context are modelled by
the expression trees they denote; machine words are `Nat` with explicit
masking.  External collaborators (the patronus IR, simulator and the RNG)
are modelled from their documented contracts where noted.
-/

namespace Patron

/-- Bit-vector expressions used by patron's constraint analysis.
Models the IR node variants the code inspects (`BVSymbol`, `BVLiteral`,
`BVAnd`, `BVOr`, `BVNot`, `BVEqual`); every node stores its width, as in
the IR.  `ExprRef` handles are modelled by the trees they denote. -/
inductive Expr where
  | sym (id : Nat) (w : Nat)
  | lit (v : Nat) (w : Nat)
  | and (a : Expr) (b : Expr) (w : Nat)
  | or (a : Expr) (b : Expr) (w : Nat)
  | not (a : Expr) (w : Nat)
  | eq (a : Expr) (b : Expr) (w : Nat)

deriving instance DecidableEq, Repr for Expr

/-- The width recorded on an expression node. -/
def Expr.width : Expr → Nat
  | .sym _ w => w
  | .lit _ w => w
  | .and _ _ w => w
  | .or _ _ w => w
  | .not _ w => w
  | .eq _ _ w => w

/-- Structural size (ignoring width fields); used for termination. -/
def esize : Expr → Nat
  | .sym _ _ => 1
  | .lit _ _ => 1
  | .and a b _ => esize a + esize b + 1
  | .or a b _ => esize a + esize b + 1
  | .not a _ => esize a + 1
  | .eq a b _ => esize a + esize b + 1

/-- `ctx.not(e)`: materialize a `BVNot` node of `e`'s width in the IR
context. -/
def mkNot (e : Expr) : Expr := .not e e.width

/-- Well-typedness: the width annotation of every node is consistent
with its children (this is what the IR context guarantees for the
expressions it hands out). -/
def wtb : Expr → Bool
  | .sym _ w => w != 0
  | .lit _ w => w != 0
  | .and a b w => wtb a && wtb b && (a.width == w) && (b.width == w)
  | .or a b w => wtb a && wtb b && (a.width == w) && (b.width == w)
  | .not a w => wtb a && (a.width == w)
  | .eq a b w => wtb a && wtb b && (a.width == b.width) && (w == 1)

/-- Bit-precise evaluation of an expression under an interpretation `σ`
of the free symbols.  Values are `Nat`s truncated to the node width. -/
def evalE (σ : Nat → Nat) : Expr → Nat
  | .sym i w => σ i % 2 ^ w
  | .lit v w => v % 2 ^ w
  | .and a b _ => evalE σ a &&& evalE σ b
  | .or a b _ => evalE σ a ||| evalE σ b
  | .not a w => (2 ^ w - 1) ^^^ evalE σ a
  | .eq a b _ => if evalE σ a = evalE σ b then 1 else 0

/-- The splitter's action on a materialized negation `ctx.not(x)`
(i.e. on `mkNot x`, whose outer width equals `x`'s width): it splits
again De-Morgan-style when `x` is a width-1 `Or`, and emits the `Not`
node as atomic otherwise.  This is the specialization of the work-list
match of `split_conjunction` to pushed `Not` nodes, factored out so that
the recursion is structural; `split_neg x = split_conjunction (mkNot x)`
(`split_neg_eq`). -/
def split_neg : Expr → List Expr
  | .or a b w2 =>
    if w2 = 1 then split_neg a ++ split_neg b
    else [.not (.or a b w2) w2]
  | x => [.not x x.width]

/-- `split_conjunction` from `src/constraints.rs`.

The Rust function pops from a work list (`todo`), pushing `b` then `a`
so that `a` is processed first; this depth-first stack discipline
produces exactly the left-to-right recursion below.
Rules, matching the source `match` exactly:
a width-1 `BVAnd(a,b)` is split into its operands; a width-1
`BVNot` over a width-1 `BVOr(a,b)` is split De-Morgan-style into
`ctx.not(a)` and `ctx.not(b)` (the materialized `Not` nodes are handled
by `split_neg`); everything else is emitted as atomic. -/
def split_conjunction : Expr → List Expr
  | .and a b w =>
    if w = 1 then split_conjunction a ++ split_conjunction b
    else [.and a b w]
  | .not (.or a b w2) w =>
    if w = 1 ∧ w2 = 1 then split_neg a ++ split_neg b
    else [.not (.or a b w2) w]
  | e => [e]

/-- The shapes `split_conjunction` does not decompose (it emits the
expression itself): everything except width-1 `And` and width-1
`Not(Or(_,_))`. -/
def splitterAtomic : Expr → Bool
  | .and _ _ w => !(w == 1)
  | .not (.or _ _ w2) w => !(w == 1 && w2 == 1)
  | _ => true

/-! ## Transition systems, the constraint graph and clusters
(`src/constraints.rs`) -/

/-- A state of the transition system: its symbol, width, optional
precomputed `init` expression and `next` expression. -/
structure SysState where
  symbol : Nat
  width : Nat
  init : Option Expr
  next : Expr

deriving instance DecidableEq, Repr for SysState

/-- The external `TransitionSystem` interface consumed by the core:
iteration over states (with optional init), input signals (symbol id
and bit-vector width, in iteration order), constraints and bad-state
predicates. -/
structure TransitionSystem where
  states : List SysState
  inputs : List (Nat × Nat)
  constraints : List Expr
  bad_states : List Expr

deriving instance DecidableEq, Repr for TransitionSystem

def TransitionSystem.stateIds (sys : TransitionSystem) : List Nat :=
  sys.states.map (fun st => st.symbol)

def TransitionSystem.inputIds (sys : TransitionSystem) : List Nat :=
  sys.inputs.map (fun p => p.1)

/-- `sys.state_map().contains_key(s)`: is this symbol a state? -/
def TransitionSystem.isState (sys : TransitionSystem) (x : Nat) : Bool :=
  sys.stateIds.contains x

/-- Free symbol leaves of an expression.  This is the concrete
instantiation used in witnesses for the external comb-mode
cone-of-influence query: for a constraint expression the combinational
cone consists of its free-symbol leaves (states appear as leaves, not as
transparent nodes). -/
def freeSyms : Expr → List Nat
  | .sym i _ => [i]
  | .lit _ _ => []
  | .and a b _ => freeSyms a ++ freeSyms b
  | .or a b _ => freeSyms a ++ freeSyms b
  | .not a _ => freeSyms a
  | .eq a b _ => freeSyms a ++ freeSyms b

/-- `v.sort(); v.dedup();` on a symbol list: sorting ascending (any
correct sort yields the same list on `Nat` keys) and then dropping the
duplicates, which `Vec::dedup` removes because they are consecutive
after the sort. -/
def sortDedup (l : List Nat) : List Nat :=
  (List.insertionSort (fun a b => a ≤ b) l).dedup

/-- The petgraph undirected multigraph built by
`extract_constraint_graph`, modelled by its node-weight list (position =
petgraph node index, so `var_to_node` is positional lookup) and its edge
list (endpoint node indices plus the atomic constraint as edge
weight). -/
structure CGraph where
  nodes : List Nat
  edges : List (Nat × Nat × Expr)

deriving instance DecidableEq, Repr for CGraph

/-- The `while let Some(leaf) = leaves.pop()` loop of
`extract_constraint_graph`: the popped leaf is connected to every
remaining leaf, then gets a self-loop.  `Vec::pop` takes from the back,
so the loop processes the reversed leaf list. -/
def cliqueEdgesRev (nidx : Nat → Nat) (w : Expr) :
    List Nat → List (Nat × Nat × Expr)
  | [] => []
  | leaf :: restRev =>
    (restRev.reverse.map (fun o => (nidx leaf, nidx o, w)))
      ++ [(nidx leaf, nidx leaf, w)]
      ++ cliqueEdgesRev nidx w restRev

def cliqueEdges (nidx : Nat → Nat) (w : Expr) (leaves : List Nat) :
    List (Nat × Nat × Expr) :=
  cliqueEdgesRev nidx w leaves.reverse

/-- `make sure all leaves are represented as nodes`: insert the leaves
missing from the node list, in leaf order (`graph.add_node` appends, so
a new node's index is the current length). -/
def addNodes (nodes : List Nat) : List Nat → List Nat
  | [] => nodes
  | l :: ls => addNodes (if nodes.contains l then nodes else nodes ++ [l]) ls

/-- The per-sub-constraint leaf analysis of `extract_constraint_graph`:
in init mode the init-mode cone of influence, otherwise the comb-mode
cone with every leaf that `state_map` identifies as a state dropped.
`coiInit` and `coiComb` are the external patronus
`cone_of_influence_init` / `cone_of_influence_comb` queries (outside
this repository); the theorems below hold for arbitrary such queries. -/
def leavesFor (coiInit coiComb : Expr → List Nat) (sys : TransitionSystem)
    (init : Bool) (e : Expr) : List Nat :=
  if init then coiInit e
  else (coiComb e).filter (fun l => !(sys.isState l))

/-- The loop body of `extract_constraint_graph` for one atomic
sub-constraint: compute the sorted, deduplicated leaf set, register the
leaves as nodes, and append the clique-plus-self-loop edges weighted by
the sub-constraint (`var_to_node` is positional lookup into the node
list). -/
def gstep (coiInit coiComb : Expr → List Nat) (sys : TransitionSystem)
    (init : Bool) (g : CGraph) (sub : Expr) : CGraph :=
  let leaves := sortDedup (leavesFor coiInit coiComb sys init sub)
  let nodes := addNodes g.nodes leaves
  { nodes := nodes,
    edges := g.edges ++ cliqueEdges (fun l => nodes.indexOf l) sub leaves }

/-- `extract_constraint_graph` from `src/constraints.rs`: split every
system constraint into atomic sub-constraints and run `gstep` on each of
them in order. -/
def extract_constraint_graph (coiInit coiComb : Expr → List Nat)
    (sys : TransitionSystem) (init : Bool) : CGraph :=
  (sys.constraints.flatMap split_conjunction).foldl
    (gstep coiInit coiComb sys init) ⟨[], []⟩

/-- One `union` of the external petgraph `UnionFind`, modelled by global
relabelling: every node carrying the label of `b` now carries the label
of `a`.  This realizes the union-find contract the code relies on
(`union` merges two label classes and leaves the rest intact). -/
def ufUnion (labels : List Nat) (a b : Nat) : List Nat :=
  let la := labels.getD a 0
  let lb := labels.getD b 0
  labels.map (fun l => if l = lb then la else l)

/-- `into_labeling` after unioning the endpoints of every edge. -/
def ufRun (n : Nat) (edges : List (Nat × Nat × Expr)) : List Nat :=
  edges.foldl (fun ls e => ufUnion ls e.1 e.2.1) (List.range n)

/-- The component with representative label `r`: all node indices
whose final union-find label is `r` (the `clusters` hash-map grouping of
`into_labeling`). -/
def groupOf (labels : List Nat) (n : Nat) (r : Nat) : List Nat :=
  (List.range n).filter (fun i => labels.getD i 0 = r)

/-- `connected_components` from `src/constraints.rs`: union the two
endpoints of every edge, group node indices by final label, and sort the
collected groups (`out.sort_unstable()`).  Grouping by label in
first-occurrence order already yields each group ascending; the final
sort mirrors `sort_unstable` (on disjoint ascending lists the
lexicographic order it uses is the order of the minimal members, i.e.
of the heads). -/
def connected_components (g : CGraph) : List (List Nat) :=
  let labels := ufRun g.nodes.length g.edges
  let groups := labels.dedup.map (groupOf labels g.nodes.length)
  List.insertionSort (fun g1 g2 => g1.headD 0 ≤ g2.headD 0) groups

/-- `ConstraintCluster`: atomic constraint expressions together with the
state and input symbols in the union of their supports. -/
structure ConstraintCluster where
  exprs : List Expr
  states : List Nat
  inputs : List Nat

deriving instance DecidableEq, Repr for ConstraintCluster

/-- `ConstraintCluster::new` sorts and deduplicates all three lists.
`ExprRef`s sort by their opaque numeric handle; no claim depends on that
order, so the expression list is modelled by `List.dedup` (duplicates
removed) and the symbol lists by `sortDedup`. -/
def ConstraintCluster.new (exprs : List Expr) (states inputs : List Nat) :
    ConstraintCluster :=
  ⟨exprs.dedup, sortDedup states, sortDedup inputs⟩

/-- `graph.edges(node)`: the weights of the edges incident to a node
(petgraph reports every incident edge, self-loops included). -/
def edgesAt (g : CGraph) (i : Nat) : List Expr :=
  g.edges.filterMap (fun e => if e.1 = i ∨ e.2.1 = i then some e.2.2 else none)

/-- `analyze_constraints` from `src/constraints.rs`: build the
constraint graph, extract connected components, and turn every component
into a `ConstraintCluster` (node weights partitioned into states and
inputs by `state_map`, incident edge weights collected as the cluster's
expressions). -/
def analyze_constraints (coiInit coiComb : Expr → List Nat)
    (sys : TransitionSystem) (init : Bool) : List ConstraintCluster :=
  let graph := extract_constraint_graph coiInit coiComb sys init
  let groups := connected_components graph
  groups.map (fun group =>
    let symbols := group.map (fun i => graph.nodes.getD i 0)
    let exprs := group.flatMap (fun i => edgesAt graph i)
    let sp := symbols.partition (fun s => sys.isState s)
    ConstraintCluster.new exprs sp.1 sp.2)

/-! ### The graph-construction invariant -/

/-- The leaf set a sub-constraint contributes to the constraint graph
(sorted, deduplicated, mode-filtered; see `gstep`). -/
def LSet (coiInit coiComb : Expr → List Nat) (sys : TransitionSystem)
    (init : Bool) (e : Expr) : List Nat :=
  sortDedup (leavesFor coiInit coiComb sys init e)

/-- Invariant of the graph built by folding `gstep` over the atomic
sub-constraints `subs`: node weights are distinct; every edge joins
valid node indices whose weights are leaves of the edge's constraint;
every processed sub-constraint has a self-loop on each of its leaves and
a direct edge between any two distinct leaves; and every node weight is
a leaf of some constraint. -/
structure GInv (L : Expr → List Nat) (subs : List Expr) (g : CGraph) : Prop where
  nodup : g.nodes.Nodup
  edge_lt : ∀ ed ∈ g.edges, ed.1 < g.nodes.length ∧ ed.2.1 < g.nodes.length
  edge_leaf : ∀ ed ∈ g.edges,
    g.nodes.getD ed.1 0 ∈ L ed.2.2 ∧ g.nodes.getD ed.2.1 0 ∈ L ed.2.2
  self_loop : ∀ sub ∈ subs, ∀ l ∈ L sub,
    ∃ j, j < g.nodes.length ∧ g.nodes.getD j 0 = l ∧ (j, j, sub) ∈ g.edges
  clique : ∀ sub ∈ subs, ∀ l1 ∈ L sub, ∀ l2 ∈ L sub, l1 ≠ l2 →
    ∃ j1 j2, j1 < g.nodes.length ∧ j2 < g.nodes.length ∧
      g.nodes.getD j1 0 = l1 ∧ g.nodes.getD j2 0 = l2 ∧
      ((j1, j2, sub) ∈ g.edges ∨ (j2, j1, sub) ∈ g.edges)
  node_src : ∀ x ∈ g.nodes, ∃ e ∈ subs, x ∈ L e

/-- The system exhibiting the C3 counterexample: a single constraint
whose only leaf is a state, analyzed in comb (non-init) mode. -/
def sysStateOnly : TransitionSystem :=
  ⟨[⟨5, 1, none, .sym 5 1⟩], [], [.sym 5 1], []⟩

/-- The system used in witnesses: one state (symbol 10), one input
(symbol 0) and one atomic constraint `Or(x10, x0)` relating them. -/
def sysPair : TransitionSystem :=
  ⟨[⟨10, 1, none, .sym 10 1⟩], [(0, 1)],
    [Expr.or (.sym 10 1) (.sym 0 1) 1], []⟩

/-! ## The randomized search engine (`src/random.rs`) -/

/-- `patronus::ir::value::mask`: the low-`w`-bit mask, for `w ≤ 64`
(`!0u64` when `w = 64`, `(1 << w) - 1` otherwise — both are
`2 ^ w - 1`). -/
def mask (w : Nat) : Nat := 2 ^ w - 1

/-- Modelled from the spec: the simulator stores a value of width `w`
as `(w + 63) / 64` little-endian 64-bit `Word`s (`value.words()`). -/
def wordsOf (v : Nat) (w : Nat) : List Nat :=
  (List.range ((w + 63) / 64)).map (fun i => (v >>> (64 * i)) % 2 ^ 64)

/-- Modelled from the spec: the per-worker RNG
(`rand_xoshiro::Xoshiro256PlusPlus`) is a deterministic, cloneable
stream of 64-bit draws.  The seeded generator is modelled by its output
stream `g` together with the number of draws consumed; `Clone` copies
both, which captures the replay-seed discipline exactly. -/
structure Rng where
  g : Nat → Nat
  pos : Nat

/-- `rng.next_u64()`: one 64-bit draw. -/
def Rng.next (r : Rng) : Nat × Rng :=
  (r.g r.pos % 2 ^ 64, ⟨r.g, r.pos + 1⟩)

/-- The typing view of the IR context used by the sampler:
`ctx.get(symbol).get_bv_type(ctx)` is `some w` for a bit-vector of width
`w` and `none` for an array-typed symbol. -/
structure Context where
  ty : Nat → Option Nat

/-- Modelled from the spec: the bit-precise simulator (`patronus`
`Interpreter`).  Its observable state is the assignment of raw values to
the free symbols; `get` evaluates expressions bit-precisely on demand
under that assignment, so `update()` (recomputing derived signals) is
the identity on this state; `set` writes a symbol; `step` advances every
state by its `next` expression simultaneously; snapshots copy the
assignment, and `init(Zero)` is the all-zero assignment. -/
structure Sim where
  σ : Nat → Nat

def Sim.get (sim : Sim) (e : Expr) : Option Nat := some (evalE sim.σ e)

def Sim.set (sim : Sim) (symbol : Nat) (v : Nat) : Sim :=
  ⟨fun i => if i = symbol then v else sim.σ i⟩

def Sim.step (sys : TransitionSystem) (sim : Sim) : Sim :=
  ⟨fun i =>
    match sys.states.find? (fun st => st.symbol == i) with
    | some st => evalE sim.σ st.next
    | none => sim.σ i⟩

/-- `randomize_symbol` from `src/random.rs`: for a bit-vector symbol of
width ≤ 64, draw a uniform 64-bit word, mask it to the width and write
it via `sim.set`; wider bit-vectors and array-typed symbols hit `todo!`
panics, modelled as errors (the worker dies; no value is written). -/
def randomize_symbol (ctx : Context) (rng : Rng) (symbol : Nat)
    (sim : Sim) : Except String (Rng × Sim) :=
  match ctx.ty symbol with
  | some width =>
    if width ≤ 64 then
      let p := rng.next
      .ok (p.2, sim.set symbol (p.1 &&& mask width))
    else .error "todo: generate value wider than 64-bit"
  | none => .error "todo: support array type inputs"

/-- The `for` loops of `randomize_inputs` that call `randomize_symbol`
on every symbol of a list, in order.  The returned (symbol, value) write
log is for specification purposes only (it records what was written) and
does not influence control flow; a failing `randomize_symbol` aborts. -/
def sampleSyms (ctx : Context) (rng : Rng) (sim : Sim) :
    List Nat → Except String (Rng × Sim × List (Nat × Nat))
  | [] => .ok (rng, sim, [])
  | s :: rest =>
    match randomize_symbol ctx rng s sim with
    | .error msg => .error msg
    | .ok (rng1, sim1) =>
      match sampleSyms ctx rng1 sim1 rest with
      | .error msg => .error msg
      | .ok (rng2, sim2, ws) => .ok (rng2, sim2, (s, sim1.σ s) :: ws)

/-- `cluster.exprs().iter().all(|e| sim.get(e).to_u64() == 1)`. -/
def checkExprs (sim : Sim) (exprs : List Expr) : Bool :=
  exprs.all (fun e => evalE sim.σ e == 1)

/-- The rejection-sampling `loop` of `randomize_inputs` for one cluster:
sample every input of the cluster, recompute (`sim.update()`, the
identity in this simulator model) and accept iff every cluster
expression evaluates to 1, else retry.  The Rust loop is unbounded;
`fuel` bounds the rounds in the model and `none` means the loop was
still running after `fuel` rounds.  Only the accepted round's writes are
reported (earlier rounds are overwritten). -/
def clusterLoop (ctx : Context) (cl : ConstraintCluster) :
    Nat → Rng → Sim → Option (Except String (Rng × Sim × List (Nat × Nat)))
  | 0, _, _ => none
  | fuel + 1, rng, sim =>
    match sampleSyms ctx rng sim cl.inputs with
    | .error msg => some (.error msg)
    | .ok (rng1, sim1, ws) =>
      if checkExprs sim1 cl.exprs then some (.ok (rng1, sim1, ws))
      else clusterLoop ctx cl fuel rng1 sim1

/-- The per-cluster phase of `randomize_inputs`, clusters in order. -/
def randomize_clusters (ctx : Context) (fuel : Nat) :
    List ConstraintCluster → Rng → Sim →
      Option (Except String (Rng × Sim × List (Nat × Nat)))
  | [], rng, sim => some (.ok (rng, sim, []))
  | cl :: rest, rng, sim =>
    match clusterLoop ctx cl fuel rng sim with
    | none => none
    | some (.error m) => some (.error m)
    | some (.ok (rng1, sim1, ws1)) =>
      match randomize_clusters ctx fuel rest rng1 sim1 with
      | none => none
      | some (.error m) => some (.error m)
      | some (.ok (rng2, sim2, ws2)) => some (.ok (rng2, sim2, ws1 ++ ws2))

/-- `randomize_inputs` from `src/random.rs`: run the rejection loop for
every cluster in order, then sample every unconstrained input once (no
rejection).  The write log concatenates each cluster's accepted round
with the unconstrained writes. -/
def randomize_inputs (ctx : Context) (rng : Rng)
    (constraints : List ConstraintCluster) (unconstrained : List Nat)
    (sim : Sim) (fuel : Nat) :
    Option (Except String (Rng × Sim × List (Nat × Nat))) :=
  match randomize_clusters ctx fuel constraints rng sim with
  | none => none
  | some (.error m) => some (.error m)
  | some (.ok (rng1, sim1, ws1)) =>
    match sampleSyms ctx rng1 sim1 unconstrained with
    | .error m => some (.error m)
    | .ok (rng2, sim2, ws2) => some (.ok (rng2, sim2, ws1 ++ ws2))

/-- `check_for_bad_states`: the indices of the bad-state predicates that
evaluate to 1. -/
def check_for_bad_states (bad_states : List Expr) (sim : Sim) : List Nat :=
  bad_states.enum.filterMap
    (fun p => if evalE sim.σ p.2 = 1 then some p.1 else none)

/-- `RandomOptions`; the `f64` probability `large_k_prob` is modelled by
the `2^64`-scaled integer threshold that `gen_bool` compares one uniform
64-bit draw against (`0.0` maps to threshold `0`). -/
structure RandomOptions where
  small_k : Nat
  large_k : Nat
  large_k_prob : Nat
  max_cycles : Option Nat

/-- `sample_k_max`: modelled from the spec — one draw decides
small-versus-large (`gen_bool(large_k_prob)`), one draw picks uniformly
(`gen_range(lo..hi+1)` as `lo + draw mod (hi + 1 - lo)`). -/
def sample_k_max (rng : Rng) (opts : RandomOptions) : Nat × Rng :=
  let p := rng.next
  if p.1 < opts.large_k_prob then
    let q := p.2.next
    (opts.small_k + q.1 % (opts.large_k + 1 - opts.small_k), q.2)
  else
    let q := p.2.next
    (1 + q.1 % opts.small_k, q.2)

/-- In-memory witness (`src/main.rs`). -/
structure Witness where
  input_data : List Nat
  state_init : List Nat
  k : Nat
  failed_safety : List Nat

deriving instance DecidableEq, Repr for Witness

/-- `ModelCheckResult` (`src/main.rs`). -/
inductive ModelCheckResult where
  | Unknown
  | UnSat
  | Sat (wit : Witness)

deriving instance DecidableEq, Repr for ModelCheckResult

/-- The per-cycle input read of `record_witness`: for every input signal
in system iteration order, the words of its current value.  The
simulator of this model exposes every input of the system it simulates,
so `sim.get` succeeds; the `None` fallback of the source (inputs the
simulator does not expose) records zero words of the declared width, or
nothing (after a diagnostic print) for widths over 64 bits. -/
def inputRead (sys : TransitionSystem) (sim : Sim) : List Nat :=
  (sys.inputs.map (fun p =>
    match sim.get (.sym p.1 p.2) with
    | some v => wordsOf v p.2
    | none => if p.2 > 64 then [] else [0])).flatten

/-- The `for k in 0..=k_bad` replay loop of `record_witness`: re-run
input sampling with the replay RNG, append every input signal's words,
run `update` (identity here; the constraint and bad-state sanity checks
are `debug_assert`s, no-ops in release builds) and step. -/
def rwLoop (ctx : Context) (sys : TransitionSystem)
    (constraints : List ConstraintCluster) (unconstrained : List Nat)
    (fuel : Nat) : Nat → Rng → Sim → List Nat →
      Option (Except String (List Nat))
  | 0, _, _, acc => some (.ok acc)
  | rem + 1, rng, sim, acc =>
    match randomize_inputs ctx rng constraints unconstrained sim fuel with
    | none => none
    | some (.error m) => some (.error m)
    | some (.ok (rng1, sim1, _)) =>
      rwLoop ctx sys constraints unconstrained fuel rem rng1
        (Sim.step sys sim1) (acc ++ inputRead sys sim1)

/-- The `state_init` read of `record_witness`: the words of the current
value of **every** state, in system iteration order (`sim.get` succeeds
for every state; `.getD 0` models the `unwrap`). -/
def stateRead (sys : TransitionSystem) (sim : Sim) : List Nat :=
  (sys.states.map (fun st =>
    wordsOf ((sim.get (.sym st.symbol st.width)).getD 0) st.width)).flatten

/-- `record_witness` from `src/random.rs`: read the current words of
every state into `state_init` (note: of every state, including states
with a computed `init` expression), then replay `k_bad + 1` cycles of
input sampling with the RNG cloned at episode start, recording the input
words of every cycle, and package the witness. -/
def record_witness (ctx : Context) (sys : TransitionSystem)
    (constraints : List ConstraintCluster) (unconstrained : List Nat)
    (bad_states : List Expr) (sim : Sim) (rng : Rng) (k_bad : Nat)
    (bads : List Nat) (fuel : Nat) : Option (Except String Witness) :=
  let state_init := stateRead sys sim
  match rwLoop ctx sys constraints unconstrained fuel (k_bad + 1) rng sim [] with
  | none => none
  | some (.error m) => some (.error m)
  | some (.ok input_data) =>
    some (.ok ⟨input_data, state_init, k_bad, bads⟩)

/-- Result of one episode's cycle loop: either the whole search is done
(with `none` meaning a model fuel bound was hit while the program would
still be running) or the episode ended and the outer loop continues. -/
inductive EpisodeOut where
  | finished (r : Option (Except String (ModelCheckResult × List String)))
  | goOn (rng : Rng) (cycle_count : Nat)

/-- The `for k in 0..=k_max` loop of `random_testing`: randomize inputs,
update (identity here), check the bad states; on a hit restore the
snapshot and hand over to `record_witness` with the episode's saved RNG;
otherwise step, bump the cycle counter and honor `max_cycles` (printing
the source's "Exciting after executing N cycles." line to stdout before
returning Unknown).  `rem` counts the remaining cycles of the episode
(`k_max` on entry, for `k_max + 1` iterations). -/
def episodeCycles (ctx : Context) (sys : TransitionSystem)
    (constraints : List ConstraintCluster) (unconstrained : List Nat)
    (bad_states : List Expr) (opts : RandomOptions) (start_state : Sim)
    (rng_start : Rng) (fuel : Nat) :
    Nat → Nat → Rng → Sim → Nat → EpisodeOut
  | rem, k, rng, sim, cycle_count =>
    match randomize_inputs ctx rng constraints unconstrained sim fuel with
    | none => .finished none
    | some (.error m) => .finished (some (.error m))
    | some (.ok (rng1, sim1, _)) =>
      let bads := check_for_bad_states bad_states sim1
      if bads.isEmpty then
        let sim2 := Sim.step sys sim1
        let cc := cycle_count + 1
        if (match opts.max_cycles with
            | some max_cycles => max_cycles ≤ cc
            | none => false : Bool) then
          .finished (some (.ok (.Unknown,
            ["Exciting after executing " ++ toString cc ++ " cycles."])))
        else
          match rem with
          | 0 => .goOn rng1 cc
          | r + 1 =>
            episodeCycles ctx sys constraints unconstrained bad_states opts
              start_state rng_start fuel r (k + 1) rng1 sim2 cc
      else
        match record_witness ctx sys constraints unconstrained bad_states
            start_state rng_start k bads fuel with
        | none => .finished none
        | some (.error m) => .finished (some (.error m))
        | some (.ok wit) => .finished (some (.ok (.Sat wit, [])))

/-- The outer episode loop of `random_testing`: sample `k_max`, restore
the starting snapshot, save the RNG for replay and run the cycle loop;
`efuel` bounds the number of episodes in the model (the Rust loop is
unbounded). -/
def episodeLoop (ctx : Context) (sys : TransitionSystem)
    (constraints : List ConstraintCluster) (unconstrained : List Nat)
    (bad_states : List Expr) (opts : RandomOptions) (start_state : Sim)
    (fuel : Nat) :
    Nat → Rng → Nat → Option (Except String (ModelCheckResult × List String))
  | 0, _, _ => none
  | efuel + 1, rng, cycle_count =>
    let kp := sample_k_max rng opts
    match episodeCycles ctx sys constraints unconstrained bad_states opts
        start_state kp.2 fuel kp.1 0 kp.2 start_state cycle_count with
    | .finished r => r
    | .goOn rng1 cc =>
      episodeLoop ctx sys constraints unconstrained bad_states opts
        start_state fuel efuel rng1 cc

/-- The constrained-input set of `random_testing` (the flattened cluster
inputs, collected into a hash set whose only use is membership). -/
def constrainedInputs (coiInit coiComb : Expr → List Nat)
    (sys : TransitionSystem) : List Nat :=
  ((analyze_constraints coiInit coiComb sys false).map
    (fun c => c.inputs)).flatten

/-- The unconstrained inputs of `random_testing`: the input signals, in
system iteration order, that occur in no cluster. -/
def unconstrainedInputs (coiInit coiComb : Expr → List Nat)
    (sys : TransitionSystem) : List Nat :=
  sys.inputIds.filter
    (fun s => !((constrainedInputs coiInit coiComb sys).contains s))

/-- `random_testing` from `src/random.rs`: analyze the constraints in
comb mode, split the inputs into constrained (cluster) and unconstrained
ones, collect the bad states, initialize all simulator states to zero,
snapshot, seed the RNG and run the episode loop.  The seeded RNG is
modelled by its draw stream `g`; `fuel` bounds each rejection-sampling
loop and `efuel` the number of episodes; `none` means a fuel bound was
hit, i.e. the program would still be running.  The `List String`
component collects what the function prints to stdout. -/
def random_testing (coiInit coiComb : Expr → List Nat) (ctx : Context)
    (sys : TransitionSystem) (opts : RandomOptions) (g : Nat → Nat)
    (fuel efuel : Nat) :
    Option (Except String (ModelCheckResult × List String)) :=
  let constraints := analyze_constraints coiInit coiComb sys false
  let unconstrained_inputs := unconstrainedInputs coiInit coiComb sys
  let bad_states := sys.bad_states
  let start_state : Sim := ⟨fun _ => 0⟩
  episodeLoop ctx sys constraints unconstrained_inputs bad_states opts
    start_state fuel efuel ⟨g, 0⟩ 0

/-! ### C9: the Unknown outcome prints a diagnostic line -/

/-- The system for the C9 evaluation: no inputs, no constraints, one
never-failing bad predicate. -/
def sys9 : TransitionSystem := ⟨[], [], [], [.lit 0 1]⟩

/-- Options with `max_cycles = 1` and the source defaults otherwise. -/
def opts9 : RandomOptions := ⟨50, 1000, 0, some 1⟩

/-! ### C5: `state_init` also records computed-init states -/

/-- The system for the C5 evaluation: state 0 has a computed init
(`init = 1`), state 1 has a free init. -/
def sysC5 : TransitionSystem :=
  ⟨[⟨0, 1, some (.lit 1 1), .sym 0 1⟩, ⟨1, 1, none, .sym 1 1⟩], [], [], []⟩

/-! ### C2: witness replay consistency -/

/-- Does the symbol `x` occur at its declared width `w`, i.e. as a state
of width `w` or as an input signal of width `w`? -/
def declaredB (sys : TransitionSystem) (x w : Nat) : Bool :=
  sys.states.any (fun st => st.symbol == x && st.width == w) ||
  sys.inputs.contains (x, w)

/-- Every symbol leaf of the expression occurs at its declared width
(an IR well-formedness condition: expressions of the system mention the
system's symbols at their declared widths). -/
def symWidthOk (sys : TransitionSystem) : Expr → Bool
  | .sym i w => declaredB sys i w
  | .lit _ _ => true
  | .and a b _ => symWidthOk sys a && symWidthOk sys b
  | .or a b _ => symWidthOk sys a && symWidthOk sys b
  | .not a _ => symWidthOk sys a
  | .eq a b _ => symWidthOk sys a && symWidthOk sys b

/-- Two simulator states agree on every declared symbol up to its
declared width (evaluation only reads symbols masked to their width). -/
def agreeOn (sys : TransitionSystem) (s1 s2 : Sim) : Prop :=
  ∀ x w, declaredB sys x w = true → s1.σ x % 2 ^ w = s2.σ x % 2 ^ w

/-- Agreement on the states only (the inputs are rewritten at the start
of every cycle). -/
def stAgree (sys : TransitionSystem) (s1 s2 : Sim) : Prop :=
  ∀ st ∈ sys.states, s1.σ st.symbol % 2 ^ st.width = s2.σ st.symbol % 2 ^ st.width

/-- Modelled from the spec: write one recorded word to each listed
symbol, positionally (widths are at most 64 bits, one word per value). -/
def setFromData (sim : Sim) (syms : List (Nat × Nat)) (data : List Nat) : Sim :=
  (syms.zip data).foldl (fun s p => s.set p.1.1 p.2) sim

/-- Modelled from the spec: the fresh simulator for re-driving a witness
— all symbols zero, then the recorded `state_init` words assigned to the
states in system iteration order. -/
def redriveInit (sys : TransitionSystem) (wit : Witness) : Sim :=
  setFromData ⟨fun _ => 0⟩ (sys.states.map (fun st => (st.symbol, st.width)))
    wit.state_init

/-- The words of cycle `j` in the k-major `input_data` (one word per
input signal). -/
def inputChunk (sys : TransitionSystem) (data : List Nat) (j : Nat) :
    List Nat :=
  (data.drop (j * sys.inputs.length)).take sys.inputs.length

/-- Modelled from the spec: the state of the re-driven simulator at
cycle `j`, after that cycle's recorded input words have been applied —
the point at which the bad predicates are checked.  Cycle 0 applies
chunk 0 to the initialized simulator; every later cycle steps and
applies its chunk. -/
def redriveFrom (sys : TransitionSystem) (simR : Sim) (data : List Nat) :
    Nat → Sim
  | 0 => setFromData simR sys.inputs (inputChunk sys data 0)
  | j + 1 => setFromData (Sim.step sys (redriveFrom sys simR data j))
      sys.inputs (inputChunk sys data (j + 1))

/-- Re-driving a fresh simulator with the witness's `state_init` and
`input_data`, observed at cycle `j`. -/
def redriveAt (sys : TransitionSystem) (wit : Witness) (j : Nat) : Sim :=
  redriveFrom sys (redriveInit sys wit) wit.input_data j

/-- The (RNG, simulator) pair before cycle `j` of a sampled run, both
for the search episode and for the witness replay (which perform the
same sequence of `randomize_inputs` and `step` calls); `none` collapses
model-fuel exhaustion and sampler errors. -/
def trajSim (ctx : Context) (sys : TransitionSystem)
    (constraints : List ConstraintCluster) (unconstrained : List Nat)
    (fuel : Nat) : Nat → Rng → Sim → Option (Rng × Sim)
  | 0, rng, sim => some (rng, sim)
  | j + 1, rng, sim =>
    match randomize_inputs ctx rng constraints unconstrained sim fuel with
    | some (.ok (rng1, sim1, _)) =>
      trajSim ctx sys constraints unconstrained fuel j rng1 (Sim.step sys sim1)
    | _ => none

/-- The input words recorded over `m` sampled cycles. -/
def trajData (ctx : Context) (sys : TransitionSystem)
    (constraints : List ConstraintCluster) (unconstrained : List Nat)
    (fuel : Nat) : Nat → Rng → Sim → Option (List Nat)
  | 0, _, _ => some []
  | j + 1, rng, sim =>
    match randomize_inputs ctx rng constraints unconstrained sim fuel with
    | some (.ok (rng1, sim1, _)) =>
      match trajData ctx sys constraints unconstrained fuel j rng1
          (Sim.step sys sim1) with
      | some rest => some (inputRead sys sim1 ++ rest)
      | none => none
    | _ => none

/-- Concrete system for the C2 witness: one 1-bit input, no states or
constraints, and the input itself as the bad predicate. -/
def wsysC2 : TransitionSystem := ⟨[], [(0, 1)], [], [Expr.sym 0 1]⟩

/-- IR typing context for `wsysC2`: every symbol is a 1-bit vector. -/
def wctxC2 : Context := ⟨fun _ => some 1⟩

/-- Options for the C2 witness run: `small_k = large_k = 1`, never pick
the large range, no cycle limit. -/
def woptsC2 : RandomOptions := ⟨1, 1, 0, none⟩

/-- The witness that the C2 run on `wsysC2` produces: one recorded input
word (the sampled 1), no recorded state words, failure at cycle 0 on bad
predicate 0. -/
def witC2 : Witness := ⟨[1], [], 0, [0]⟩

/-- The system for the C10 witness: three 1-bit inputs, one constraint
`Or(x0, x1)` clustering inputs 0 and 1, input 2 unconstrained. -/
def sys10 : TransitionSystem :=
  ⟨[], [(0, 1), (1, 1), (2, 1)], [Expr.or (.sym 0 1) (.sym 1 1) 1], []⟩

theorem one_le_esize (e : Expr) : 1 ≤ esize e := by
  cases e <;> simp [esize]

theorem evalE_lt (σ : Nat → Nat) (e : Expr) (h : wtb e = true) :
    evalE σ e < 2 ^ e.width := by
  induction e with
  | sym i w => exact Nat.mod_lt _ (Nat.pos_pow_of_pos w (by omega))
  | lit v w => exact Nat.mod_lt _ (Nat.pos_pow_of_pos w (by omega))
  | and a b w iha ihb =>
    simp only [wtb, Bool.and_eq_true, beq_iff_eq] at h
    obtain ⟨⟨⟨ha, hb⟩, hwa⟩, hwb⟩ := h
    have := iha ha
    rw [hwa] at this
    exact Nat.lt_of_le_of_lt (Nat.and_le_left (m := evalE σ b)) this
  | or a b w iha ihb =>
    simp only [wtb, Bool.and_eq_true, beq_iff_eq] at h
    obtain ⟨⟨⟨ha, hb⟩, hwa⟩, hwb⟩ := h
    have h1 := iha ha; have h2 := ihb hb
    rw [hwa] at h1; rw [hwb] at h2
    exact Nat.or_lt_two_pow h1 h2
  | not a w iha =>
    simp only [wtb, Bool.and_eq_true, beq_iff_eq] at h
    obtain ⟨ha, hwa⟩ := h
    have h1 := iha ha
    rw [hwa] at h1
    have h2 : 2 ^ w - 1 < 2 ^ w := by
      have : 0 < 2 ^ w := Nat.pos_pow_of_pos w (by omega)
      omega
    exact Nat.xor_lt_two_pow h2 h1
  | eq a b w iha ihb =>
    simp only [wtb, Bool.and_eq_true, beq_iff_eq] at h
    obtain ⟨⟨⟨ha, hb⟩, hab⟩, hw⟩ := h
    subst hw
    simp only [evalE, Expr.width]
    split <;> omega

theorem split_neg_eq (x : Expr) : split_neg x = split_conjunction (mkNot x) := by
  cases x with
  | or a b w2 =>
    by_cases h : w2 = 1
    · rw [split_neg, if_pos h, mkNot]
      show _ = split_conjunction (.not (.or a b w2) (Expr.or a b w2).width)
      rw [Expr.width, split_conjunction, if_pos ⟨h, h⟩]
    · rw [split_neg, if_neg h, mkNot]
      show _ = split_conjunction (.not (.or a b w2) (Expr.or a b w2).width)
      rw [Expr.width, split_conjunction, if_neg (by tauto)]
  | sym i w => rfl
  | lit v w => rfl
  | and a b w => rfl
  | not a w => rfl
  | eq a b w => rfl

theorem split_conjunction_and (a b : Expr) :
    split_conjunction (.and a b 1) = split_conjunction a ++ split_conjunction b := by
  rw [split_conjunction]
  simp

theorem split_conjunction_demorgan (a b : Expr) :
    split_conjunction (.not (.or a b 1) 1)
      = split_conjunction (mkNot a) ++ split_conjunction (mkNot b) := by
  rw [split_conjunction, if_pos ⟨rfl, rfl⟩, split_neg_eq, split_neg_eq]

theorem split_conjunction_atomic (e : Expr) (h : splitterAtomic e = true) :
    split_conjunction e = [e] := by
  match e with
  | .sym i w => rw [split_conjunction] <;> simp
  | .lit v w => rw [split_conjunction] <;> simp
  | .or a b w => rw [split_conjunction] <;> simp
  | .eq a b w => rw [split_conjunction] <;> simp
  | .and a b w =>
    simp only [splitterAtomic, Bool.not_eq_eq_eq_not, Bool.not_true, beq_eq_false_iff_ne,
      ne_eq] at h
    rw [split_conjunction, if_neg h]
  | .not (.sym i w1) w => rw [split_conjunction] <;> simp
  | .not (.lit v w1) w => rw [split_conjunction] <;> simp
  | .not (.and a b w1) w => rw [split_conjunction] <;> simp
  | .not (.not a w1) w => rw [split_conjunction] <;> simp
  | .not (.eq a b w1) w => rw [split_conjunction] <;> simp
  | .not (.or a b w2) w =>
    simp only [splitterAtomic, Bool.not_eq_eq_eq_not, Bool.not_true, Bool.and_eq_false_iff,
      beq_eq_false_iff_ne, ne_eq] at h
    rw [split_conjunction, if_neg (by tauto)]

theorem lt_two_cases {x : Nat} (h : x < 2) : x = 0 ∨ x = 1 := by omega

theorem and_bit_one {x y : Nat} (hx : x < 2) (hy : y < 2) :
    x &&& y = 1 ↔ x = 1 ∧ y = 1 := by
  rcases lt_two_cases hx with h1 | h1 <;> rcases lt_two_cases hy with h2 | h2 <;>
    subst h1 <;> subst h2 <;> simp

theorem not_or_bit_one {x y : Nat} (hx : x < 2) (hy : y < 2) :
    1 ^^^ (x ||| y) = 1 ↔ (1 ^^^ x = 1) ∧ (1 ^^^ y = 1) := by
  rcases lt_two_cases hx with h1 | h1 <;> rcases lt_two_cases hy with h2 | h2 <;>
    subst h1 <;> subst h2 <;> simp

/-- Soundness of the conjunction splitter: for a well-typed 1-bit
expression, the conjunction of the emitted atoms is equivalent to the
expression under every interpretation.  Strong induction on `esize`. -/
theorem split_conjunction_sound (σ : Nat → Nat) :
    ∀ n e, esize e ≤ n → wtb e = true → e.width = 1 →
      (evalE σ e = 1 ↔ ∀ c ∈ split_conjunction e, evalE σ c = 1) := by
  intro n
  induction n with
  | zero =>
    intro e hs
    have := one_le_esize e
    omega
  | succ n ih =>
    intro e hs hwt hw
    match e with
    | .sym i w => simp [split_conjunction_atomic (Expr.sym i w) rfl]
    | .lit v w => simp [split_conjunction_atomic (Expr.lit v w) rfl]
    | .or a b w => simp [split_conjunction_atomic (Expr.or a b w) rfl]
    | .eq a b w => simp [split_conjunction_atomic (Expr.eq a b w) rfl]
    | .and a b w =>
      simp only [Expr.width] at hw
      subst hw
      simp only [wtb, Bool.and_eq_true, beq_iff_eq] at hwt
      obtain ⟨⟨⟨ha, hb⟩, hwa⟩, hwb⟩ := hwt
      have hsa : esize a ≤ n := by
        have := one_le_esize b; simp [esize] at hs; omega
      have hsb : esize b ≤ n := by
        have := one_le_esize a; simp [esize] at hs; omega
      have iha := ih a hsa ha hwa
      have ihb := ih b hsb hb hwb
      have hva : evalE σ a < 2 := by have := evalE_lt σ a ha; rwa [hwa] at this
      have hvb : evalE σ b < 2 := by have := evalE_lt σ b hb; rwa [hwb] at this
      rw [split_conjunction_and]
      simp only [evalE, List.mem_append]
      rw [and_bit_one hva hvb]
      constructor
      · rintro ⟨h1, h2⟩ c hc
        rcases hc with hc | hc
        · exact (iha.mp h1) c hc
        · exact (ihb.mp h2) c hc
      · intro hAll
        exact ⟨iha.mpr (fun c hc => hAll c (Or.inl hc)),
               ihb.mpr (fun c hc => hAll c (Or.inr hc))⟩
    | .not a w =>
      simp only [Expr.width] at hw
      subst hw
      simp only [wtb, Bool.and_eq_true, beq_iff_eq] at hwt
      obtain ⟨ha, hwa⟩ := hwt
      match a, ha, hwa with
      | .or x y w2, ha, hwa =>
        simp only [Expr.width] at hwa
        subst hwa
        simp only [wtb, Bool.and_eq_true, beq_iff_eq] at ha
        obtain ⟨⟨⟨hx, hy⟩, hwx⟩, hwy⟩ := ha
        have hvx : evalE σ x < 2 := by have := evalE_lt σ x hx; rwa [hwx] at this
        have hvy : evalE σ y < 2 := by have := evalE_lt σ y hy; rwa [hwy] at this
        have hwtnx : wtb (mkNot x) = true := by simp [mkNot, wtb, hx]
        have hwtny : wtb (mkNot y) = true := by simp [mkNot, wtb, hy]
        have hwnx : (mkNot x).width = 1 := by
          simp only [mkNot, Expr.width]; exact hwx
        have hwny : (mkNot y).width = 1 := by
          simp only [mkNot, Expr.width]; exact hwy
        have hsx : esize (mkNot x) ≤ n := by
          have := one_le_esize y; simp [mkNot, esize] at hs ⊢; omega
        have hsy : esize (mkNot y) ≤ n := by
          have := one_le_esize x; simp [mkNot, esize] at hs ⊢; omega
        have ihx := ih (mkNot x) hsx hwtnx hwnx
        have ihy := ih (mkNot y) hsy hwtny hwny
        have hex : evalE σ (mkNot x) = 1 ^^^ evalE σ x := by
          simp [mkNot, evalE, hwx]
        have hey : evalE σ (mkNot y) = 1 ^^^ evalE σ y := by
          simp [mkNot, evalE, hwy]
        rw [hex] at ihx
        rw [hey] at ihy
        rw [split_conjunction_demorgan]
        simp only [evalE, List.mem_append]
        have : (2 : Nat) ^ 1 - 1 = 1 := by norm_num
        rw [this, not_or_bit_one hvx hvy]
        constructor
        · rintro ⟨h1, h2⟩ c hc
          rcases hc with hc | hc
          · exact (ihx.mp h1) c hc
          · exact (ihy.mp h2) c hc
        · intro hAll
          exact ⟨ihx.mpr (fun c hc => hAll c (Or.inl hc)),
                 ihy.mpr (fun c hc => hAll c (Or.inr hc))⟩
      | .sym i w1, ha, hwa =>
        simp [split_conjunction_atomic (Expr.not (.sym i w1) 1) rfl]
      | .lit v w1, ha, hwa =>
        simp [split_conjunction_atomic (Expr.not (.lit v w1) 1) rfl]
      | .and u v w1, ha, hwa =>
        simp [split_conjunction_atomic (Expr.not (.and u v w1) 1) rfl]
      | .not u w1, ha, hwa =>
        simp [split_conjunction_atomic (Expr.not (.not u w1) 1) rfl]
      | .eq u v w1, ha, hwa =>
        simp [split_conjunction_atomic (Expr.not (.eq u v w1) 1) rfl]

/-- C1: For every well-typed 1-bit expression E, the conjunction of the
atomic sub-constraints returned by `split_conjunction` is logically
equivalent to E under every interpretation of the free symbols; the
splitter recurses into `a` and `b` when E is a width-1 `And(a,b)`,
recurses into `Not a` and `Not b` (materialized via `mkNot`) when E is a
width-1 `Not(Or(a,b))`, and emits E itself as atomic in every other
case. -/
theorem splitter_soundness :
    (∀ e, wtb e = true → e.width = 1 → ∀ σ,
        (evalE σ e = 1 ↔ ∀ c ∈ split_conjunction e, evalE σ c = 1))
    ∧ (∀ a b, split_conjunction (Expr.and a b 1)
        = split_conjunction a ++ split_conjunction b)
    ∧ (∀ a b, split_conjunction (Expr.not (Expr.or a b 1) 1)
        = split_conjunction (mkNot a) ++ split_conjunction (mkNot b))
    ∧ (∀ e, splitterAtomic e = true → split_conjunction e = [e]) :=
  ⟨fun e hwt hw σ => split_conjunction_sound σ (esize e) e le_rfl hwt hw,
    split_conjunction_and, split_conjunction_demorgan, split_conjunction_atomic⟩

/-- Witness for C1 at the concrete expression `And(x0, x1)` of width 1
under the all-ones interpretation. -/
theorem splitter_soundness_witness :
    evalE (fun _ => 1) (Expr.and (.sym 0 1) (.sym 1 1) 1) = 1 ↔
      ∀ c ∈ split_conjunction (Expr.and (.sym 0 1) (.sym 1 1) 1),
        evalE (fun _ => 1) c = 1 :=
  splitter_soundness.1 (Expr.and (.sym 0 1) (.sym 1 1) 1)
    (by decide) (by decide) (fun _ => 1)

/-! ### Supporting lemmas about the graph construction -/

theorem addNodes_prefix : ∀ (leaves nodes : List Nat), nodes <+: addNodes nodes leaves := by
  intro leaves
  induction leaves with
  | nil => intro nodes; exact List.prefix_refl _
  | cons l ls ih =>
    intro nodes
    rw [addNodes]
    by_cases h : nodes.contains l
    · rw [if_pos h]; exact ih nodes
    · rw [if_neg h]
      exact (List.prefix_append nodes [l]).trans (ih (nodes ++ [l]))

theorem mem_addNodes : ∀ (leaves nodes : List Nat) (x : Nat),
    x ∈ addNodes nodes leaves ↔ x ∈ nodes ∨ x ∈ leaves := by
  intro leaves
  induction leaves with
  | nil => intro nodes x; simp [addNodes]
  | cons l ls ih =>
    intro nodes x
    rw [addNodes]
    by_cases h : nodes.contains l
    · rw [if_pos h, ih]
      have hl : l ∈ nodes := by simpa using h
      constructor
      · rintro (hx | hx)
        · exact Or.inl hx
        · exact Or.inr (List.mem_cons_of_mem _ hx)
      · rintro (hx | hx)
        · exact Or.inl hx
        · rcases List.mem_cons.mp hx with rfl | hx
          · exact Or.inl hl
          · exact Or.inr hx
    · rw [if_neg h, ih]
      simp only [List.mem_append, List.mem_singleton, List.mem_cons]
      tauto

theorem addNodes_nodup : ∀ (leaves nodes : List Nat), nodes.Nodup →
    (addNodes nodes leaves).Nodup := by
  intro leaves
  induction leaves with
  | nil => intro nodes h; exact h
  | cons l ls ih =>
    intro nodes h
    rw [addNodes]
    by_cases hc : nodes.contains l
    · rw [if_pos hc]; exact ih nodes h
    · rw [if_neg hc]
      refine ih _ ?_
      have hl : l ∉ nodes := by simpa using hc
      simp [List.nodup_append, h, hl]

theorem prefix_getD {l1 l2 : List Nat} (h : l1 <+: l2) {i : Nat}
    (hi : i < l1.length) : l2.getD i 0 = l1.getD i 0 := by
  rw [List.getD_eq_getElem _ _ hi,
    List.getD_eq_getElem _ _ (lt_of_lt_of_le hi h.length_le)]
  exact (h.getElem hi).symm

theorem indexOf_getD {l : List Nat} {x : Nat} (h : x ∈ l) :
    l.getD (l.indexOf x) 0 = x := by
  have hlt := List.indexOf_lt_length.mpr h
  rw [List.getD_eq_getElem _ _ hlt]
  exact List.indexOf_get hlt

theorem nodup_getD_inj {l : List Nat} (h : l.Nodup) {i j : Nat}
    (hi : i < l.length) (hj : j < l.length)
    (he : l.getD i 0 = l.getD j 0) : i = j := by
  rw [List.getD_eq_getElem _ _ hi, List.getD_eq_getElem _ _ hj] at he
  exact (h.getElem_inj_iff.mp he)

theorem mem_cliqueEdgesRev {nidx : Nat → Nat} {w : Expr} :
    ∀ {l : List Nat} {ed}, ed ∈ cliqueEdgesRev nidx w l →
      ∃ l1 ∈ l, ∃ l2 ∈ l, ed = (nidx l1, nidx l2, w) := by
  intro l
  induction l with
  | nil => intro ed h; simp [cliqueEdgesRev] at h
  | cons leaf rest ih =>
    intro ed h
    simp only [cliqueEdgesRev, List.mem_append, List.mem_map, List.mem_singleton,
      List.mem_reverse] at h
    rcases h with (⟨o, ho, rfl⟩ | rfl) | h
    · exact ⟨leaf, List.mem_cons_self _ _, o, List.mem_cons_of_mem _ ho, rfl⟩
    · exact ⟨leaf, List.mem_cons_self _ _, leaf, List.mem_cons_self _ _, rfl⟩
    · obtain ⟨l1, h1, l2, h2, rfl⟩ := ih h
      exact ⟨l1, List.mem_cons_of_mem _ h1, l2, List.mem_cons_of_mem _ h2, rfl⟩

theorem selfLoop_mem_cliqueEdgesRev {nidx : Nat → Nat} {w : Expr} :
    ∀ {l : List Nat} {x : Nat}, x ∈ l →
      (nidx x, nidx x, w) ∈ cliqueEdgesRev nidx w l := by
  intro l
  induction l with
  | nil => intro x h; simp at h
  | cons leaf rest ih =>
    intro x h
    simp only [cliqueEdgesRev, List.mem_append]
    rcases List.mem_cons.mp h with rfl | h
    · exact Or.inl (Or.inr (List.mem_singleton.mpr rfl))
    · exact Or.inr (ih h)

theorem clique_mem_cliqueEdgesRev {nidx : Nat → Nat} {w : Expr} :
    ∀ {l : List Nat} {x y : Nat}, x ∈ l → y ∈ l → x ≠ y →
      (nidx x, nidx y, w) ∈ cliqueEdgesRev nidx w l ∨
      (nidx y, nidx x, w) ∈ cliqueEdgesRev nidx w l := by
  intro l
  induction l with
  | nil => intro x y hx; simp at hx
  | cons leaf rest ih =>
    intro x y hx hy hxy
    by_cases hxl : x = leaf
    · have hyr : y ∈ rest := by
        rcases List.mem_cons.mp hy with h | h
        · exact absurd (hxl.trans h.symm) hxy
        · exact h
      left
      simp only [cliqueEdgesRev, List.mem_append, List.mem_map, List.mem_reverse]
      exact Or.inl (Or.inl ⟨y, hyr, by rw [hxl]⟩)
    · by_cases hyl : y = leaf
      · have hxr : x ∈ rest := by
          rcases List.mem_cons.mp hx with h | h
          · exact absurd h hxl
          · exact h
        right
        simp only [cliqueEdgesRev, List.mem_append, List.mem_map, List.mem_reverse]
        exact Or.inl (Or.inl ⟨x, hxr, by rw [hyl]⟩)
      · have hxr : x ∈ rest := by
          rcases List.mem_cons.mp hx with h | h
          · exact absurd h hxl
          · exact h
        have hyr : y ∈ rest := by
          rcases List.mem_cons.mp hy with h | h
          · exact absurd h hyl
          · exact h
        rcases ih hxr hyr hxy with h | h
        · left
          simp only [cliqueEdgesRev, List.mem_append]
          exact Or.inr h
        · right
          simp only [cliqueEdgesRev, List.mem_append]
          exact Or.inr h

/-! ### Supporting lemmas about the union-find model -/

theorem length_ufUnion (ls : List Nat) (a b : Nat) :
    (ufUnion ls a b).length = ls.length := by
  simp [ufUnion]

theorem length_foldl_ufUnion :
    ∀ (edges : List (Nat × Nat × Expr)) (ls : List Nat),
      (edges.foldl (fun ls e => ufUnion ls e.1 e.2.1) ls).length = ls.length := by
  intro edges
  induction edges with
  | nil => intro ls; rfl
  | cons e rest ih =>
    intro ls
    rw [List.foldl_cons, ih, length_ufUnion]

theorem length_ufRun (n : Nat) (edges : List (Nat × Nat × Expr)) :
    (ufRun n edges).length = n := by
  rw [ufRun, length_foldl_ufUnion, List.length_range]

theorem ufUnion_getD_pres {ls : List Nat} {i j a b : Nat}
    (hi : i < ls.length) (hj : j < ls.length)
    (h : ls.getD i 0 = ls.getD j 0) :
    (ufUnion ls a b).getD i 0 = (ufUnion ls a b).getD j 0 := by
  have hi' : i < (ufUnion ls a b).length := by rwa [length_ufUnion]
  have hj' : j < (ufUnion ls a b).length := by rwa [length_ufUnion]
  rw [List.getD_eq_getElem _ _ hi', List.getD_eq_getElem _ _ hj']
  rw [List.getD_eq_getElem _ _ hi, List.getD_eq_getElem _ _ hj] at h
  simp only [ufUnion, List.getElem_map]
  rw [h]

theorem ufUnion_getD_join {ls : List Nat} {a b : Nat}
    (ha : a < ls.length) (hb : b < ls.length) :
    (ufUnion ls a b).getD a 0 = (ufUnion ls a b).getD b 0 := by
  have ha' : a < (ufUnion ls a b).length := by rwa [length_ufUnion]
  have hb' : b < (ufUnion ls a b).length := by rwa [length_ufUnion]
  rw [List.getD_eq_getElem _ _ ha', List.getD_eq_getElem _ _ hb']
  simp only [ufUnion, List.getElem_map]
  simp only [List.getD_eq_getElem _ _ ha, List.getD_eq_getElem _ _ hb]
  by_cases h : ls[a] = ls[b]
  · simp [h]
  · simp [h]

theorem foldl_ufUnion_pres :
    ∀ (edges : List (Nat × Nat × Expr)) (ls : List Nat) (i j : Nat),
      i < ls.length → j < ls.length → ls.getD i 0 = ls.getD j 0 →
      (edges.foldl (fun ls e => ufUnion ls e.1 e.2.1) ls).getD i 0 =
        (edges.foldl (fun ls e => ufUnion ls e.1 e.2.1) ls).getD j 0 := by
  intro edges
  induction edges with
  | nil => intro ls i j hi hj h; exact h
  | cons e rest ih =>
    intro ls i j hi hj h
    rw [List.foldl_cons]
    exact ih _ i j (by rwa [length_ufUnion]) (by rwa [length_ufUnion])
      (ufUnion_getD_pres hi hj h)

theorem foldl_ufUnion_edge :
    ∀ (edges : List (Nat × Nat × Expr)) (ls : List Nat) (ed : Nat × Nat × Expr),
      ed ∈ edges → ed.1 < ls.length → ed.2.1 < ls.length →
      (edges.foldl (fun ls e => ufUnion ls e.1 e.2.1) ls).getD ed.1 0 =
        (edges.foldl (fun ls e => ufUnion ls e.1 e.2.1) ls).getD ed.2.1 0 := by
  intro edges
  induction edges with
  | nil => intro ls ed hed; simp at hed
  | cons e rest ih =>
    intro ls ed hed h1 h2
    rw [List.foldl_cons]
    rcases List.mem_cons.mp hed with rfl | hed
    · exact foldl_ufUnion_pres rest _ ed.1 ed.2.1 (by rwa [length_ufUnion])
        (by rwa [length_ufUnion]) (ufUnion_getD_join h1 h2)
    · exact ih _ ed hed (by rwa [length_ufUnion]) (by rwa [length_ufUnion])

theorem ufRun_edge_eq {n : Nat} {edges : List (Nat × Nat × Expr)}
    {ed : Nat × Nat × Expr} (hed : ed ∈ edges)
    (h1 : ed.1 < n) (h2 : ed.2.1 < n) :
    (ufRun n edges).getD ed.1 0 = (ufRun n edges).getD ed.2.1 0 := by
  rw [ufRun]
  exact foldl_ufUnion_edge edges _ ed hed (by simpa) (by simpa)

theorem mem_sortDedup {l : List Nat} {x : Nat} : x ∈ sortDedup l ↔ x ∈ l := by
  simp [sortDedup, List.mem_dedup, List.mem_insertionSort]

theorem gstep_inv {coiInit coiComb : Expr → List Nat} {sys : TransitionSystem}
    {init : Bool} {subs : List Expr} {g : CGraph} {sub : Expr}
    (h : GInv (LSet coiInit coiComb sys init) subs g) :
    GInv (LSet coiInit coiComb sys init) (subs ++ [sub])
      (gstep coiInit coiComb sys init g sub) := by
  have hpf : g.nodes <+: addNodes g.nodes (LSet coiInit coiComb sys init sub) :=
    addNodes_prefix _ _
  have hlen := hpf.length_le
  have hmemn : ∀ l ∈ LSet coiInit coiComb sys init sub,
      l ∈ addNodes g.nodes (LSet coiInit coiComb sys init sub) :=
    fun l hl => (mem_addNodes _ _ _).mpr (Or.inr hl)
  have hidx : ∀ l ∈ LSet coiInit coiComb sys init sub,
      (addNodes g.nodes (LSet coiInit coiComb sys init sub)).indexOf l <
        (addNodes g.nodes (LSet coiInit coiComb sys init sub)).length :=
    fun l hl => List.indexOf_lt_length.mpr (hmemn l hl)
  have hidxv : ∀ l ∈ LSet coiInit coiComb sys init sub,
      (addNodes g.nodes (LSet coiInit coiComb sys init sub)).getD
        ((addNodes g.nodes (LSet coiInit coiComb sys init sub)).indexOf l) 0 = l :=
    fun l hl => indexOf_getD (hmemn l hl)
  have hgstep : gstep coiInit coiComb sys init g sub =
      { nodes := addNodes g.nodes (LSet coiInit coiComb sys init sub),
        edges := g.edges ++ cliqueEdges
          (fun l => (addNodes g.nodes (LSet coiInit coiComb sys init sub)).indexOf l)
          sub (LSet coiInit coiComb sys init sub) } := rfl
  rw [hgstep]
  refine ⟨addNodes_nodup _ _ h.nodup, ?_, ?_, ?_, ?_, ?_⟩
  · intro ed hed
    rcases List.mem_append.mp hed with hed | hed
    · have := h.edge_lt ed hed
      exact ⟨lt_of_lt_of_le this.1 hlen, lt_of_lt_of_le this.2 hlen⟩
    · obtain ⟨l1, h1, l2, h2, rfl⟩ := mem_cliqueEdgesRev hed
      rw [List.mem_reverse] at h1 h2
      exact ⟨hidx l1 h1, hidx l2 h2⟩
  · intro ed hed
    rcases List.mem_append.mp hed with hed | hed
    · have hb := h.edge_lt ed hed
      have hv := h.edge_leaf ed hed
      rw [prefix_getD hpf hb.1, prefix_getD hpf hb.2]
      exact hv
    · obtain ⟨l1, h1, l2, h2, rfl⟩ := mem_cliqueEdgesRev hed
      rw [List.mem_reverse] at h1 h2
      exact ⟨by rw [hidxv l1 h1]; exact h1, by rw [hidxv l2 h2]; exact h2⟩
  · intro s hs l hl
    rcases List.mem_append.mp hs with hs | hs
    · obtain ⟨j, hj1, hj2, hj3⟩ := h.self_loop s hs l hl
      exact ⟨j, lt_of_lt_of_le hj1 hlen, by rw [prefix_getD hpf hj1]; exact hj2,
        List.mem_append.mpr (Or.inl hj3)⟩
    · rcases List.mem_singleton.mp hs with rfl
      refine ⟨(addNodes g.nodes (LSet coiInit coiComb sys init s)).indexOf l,
        hidx l hl, hidxv l hl, List.mem_append.mpr (Or.inr ?_)⟩
      exact selfLoop_mem_cliqueEdgesRev (List.mem_reverse.mpr hl)
  · intro s hs l1 hl1 l2 hl2 hne
    rcases List.mem_append.mp hs with hs | hs
    · obtain ⟨j1, j2, ha, hb, hc, hd, he⟩ := h.clique s hs l1 hl1 l2 hl2 hne
      refine ⟨j1, j2, lt_of_lt_of_le ha hlen, lt_of_lt_of_le hb hlen,
        by rw [prefix_getD hpf ha]; exact hc, by rw [prefix_getD hpf hb]; exact hd, ?_⟩
      rcases he with he | he
      · exact Or.inl (List.mem_append.mpr (Or.inl he))
      · exact Or.inr (List.mem_append.mpr (Or.inl he))
    · rcases List.mem_singleton.mp hs with rfl
      refine ⟨(addNodes g.nodes (LSet coiInit coiComb sys init s)).indexOf l1,
        (addNodes g.nodes (LSet coiInit coiComb sys init s)).indexOf l2,
        hidx l1 hl1, hidx l2 hl2, hidxv l1 hl1, hidxv l2 hl2, ?_⟩
      rcases @clique_mem_cliqueEdgesRev (fun l =>
          (addNodes g.nodes (LSet coiInit coiComb sys init s)).indexOf l) s
          _ _ _ (List.mem_reverse.mpr hl1) (List.mem_reverse.mpr hl2) hne
        with hc | hc
      · exact Or.inl (List.mem_append.mpr (Or.inr hc))
      · exact Or.inr (List.mem_append.mpr (Or.inr hc))
  · intro x hx
    rcases (mem_addNodes _ _ _).mp hx with hx | hx
    · obtain ⟨e, he, hxe⟩ := h.node_src x hx
      exact ⟨e, List.mem_append.mpr (Or.inl he), hxe⟩
    · exact ⟨sub, List.mem_append.mpr (Or.inr (List.mem_singleton.mpr rfl)), hx⟩

theorem foldl_gstep_inv {coiInit coiComb : Expr → List Nat}
    {sys : TransitionSystem} {init : Bool} :
    ∀ (pending done : List Expr) (g : CGraph),
      GInv (LSet coiInit coiComb sys init) done g →
      GInv (LSet coiInit coiComb sys init) (done ++ pending)
        (pending.foldl (gstep coiInit coiComb sys init) g) := by
  intro pending
  induction pending with
  | nil => intro done g h; simpa using h
  | cons s rest ih =>
    intro done g h
    rw [List.foldl_cons]
    have := ih (done ++ [s]) _ (gstep_inv h)
    simpa using this

theorem extract_inv (coiInit coiComb : Expr → List Nat)
    (sys : TransitionSystem) (init : Bool) :
    GInv (LSet coiInit coiComb sys init)
      (sys.constraints.flatMap split_conjunction)
      (extract_constraint_graph coiInit coiComb sys init) := by
  have h0 : GInv (LSet coiInit coiComb sys init) [] (⟨[], []⟩ : CGraph) := by
    refine ⟨List.nodup_nil, ?_, ?_, ?_, ?_, ?_⟩ <;> simp
  have := foldl_gstep_inv (sys.constraints.flatMap split_conjunction) [] _ h0
  simpa [extract_constraint_graph] using this

/-! ### Connected components of an invariant-satisfying graph -/

theorem mem_groupOf {labels : List Nat} {n r i : Nat} :
    i ∈ groupOf labels n r ↔ i < n ∧ labels.getD i 0 = r := by
  simp [groupOf, List.mem_filter, List.mem_range]

theorem connected_components_perm (g : CGraph) :
    (connected_components g).Perm
      ((ufRun g.nodes.length g.edges).dedup.map
        (groupOf (ufRun g.nodes.length g.edges) g.nodes.length)) := by
  simp only [connected_components]
  exact List.perm_insertionSort _ _

theorem mem_connected_components {g : CGraph} {grp : List Nat} :
    grp ∈ connected_components g ↔
      ∃ r ∈ (ufRun g.nodes.length g.edges).dedup,
        groupOf (ufRun g.nodes.length g.edges) g.nodes.length r = grp := by
  rw [(connected_components_perm g).mem_iff, List.mem_map]

theorem mem_components_lt {g : CGraph} {grp : List Nat}
    (h : grp ∈ connected_components g) : ∀ i ∈ grp, i < g.nodes.length := by
  intro i hi
  obtain ⟨r, hr, heq⟩ := mem_connected_components.mp h
  rw [← heq] at hi
  exact (mem_groupOf.mp hi).1

/-- All indices with a leaf of `sub` as node weight carry the same final
union-find label (sub's leaves form a clique in the graph). -/
theorem label_const_on_leaves {L : Expr → List Nat} {subs : List Expr}
    {g : CGraph} (hinv : GInv L subs g) {sub : Expr} (hsub : sub ∈ subs)
    {l0 : Nat} (hl0 : l0 ∈ L sub) {j0 : Nat} (hj0lt : j0 < g.nodes.length)
    (hj0v : g.nodes.getD j0 0 = l0) :
    ∀ j, j < g.nodes.length → g.nodes.getD j 0 ∈ L sub →
      (ufRun g.nodes.length g.edges).getD j 0 =
        (ufRun g.nodes.length g.edges).getD j0 0 := by
  intro j hj hjv
  by_cases hval : g.nodes.getD j 0 = l0
  · have hjj : j = j0 := nodup_getD_inj hinv.nodup hj hj0lt (by rw [hval, hj0v])
    rw [hjj]
  · obtain ⟨j1, j2, ha, hb, hc, hd, he⟩ := hinv.clique sub hsub _ hjv l0 hl0 hval
    have hj1 : j = j1 := nodup_getD_inj hinv.nodup hj ha (by rw [hc])
    have hj2 : j0 = j2 := nodup_getD_inj hinv.nodup hj0lt hb (by rw [hd, hj0v])
    rw [hj1, hj2]
    rcases he with he | he
    · exact ufRun_edge_eq he ha hb
    · exact (ufRun_edge_eq he hb ha).symm

/-- A sub-constraint with a non-empty leaf set occurs among the incident
edge weights of exactly one connected component; one with an empty leaf
set occurs in none. -/
theorem countP_components {L : Expr → List Nat} {subs : List Expr}
    {g : CGraph} (hinv : GInv L subs g) {sub : Expr} (hsub : sub ∈ subs) :
    (connected_components g).countP
      (fun grp => decide (sub ∈ (grp.flatMap (fun i => edgesAt g i)).dedup))
      = if L sub = [] then 0 else 1 := by
  classical
  have hlab : (ufRun g.nodes.length g.edges).length = g.nodes.length :=
    length_ufRun _ _
  rw [List.Perm.countP_eq _ (connected_components_perm g), List.countP_map]
  by_cases hemp : L sub = []
  · rw [if_pos hemp, List.countP_eq_zero]
    intro r hr
    simp only [Function.comp_apply, decide_eq_true_eq]
    intro hmem
    rw [List.mem_dedup, List.mem_flatMap] at hmem
    obtain ⟨i, hi, hsubAt⟩ := hmem
    rw [edgesAt, List.mem_filterMap] at hsubAt
    obtain ⟨ed, hed, heq⟩ := hsubAt
    by_cases hc : ed.1 = i ∨ ed.2.1 = i
    · rw [if_pos hc] at heq
      injection heq with heq
      have := (hinv.edge_leaf ed hed).1
      rw [heq, hemp] at this
      exact absurd this (List.not_mem_nil _)
    · rw [if_neg hc] at heq
      cases heq
  · rw [if_neg hemp]
    obtain ⟨l0, hl0⟩ := List.exists_mem_of_ne_nil _ hemp
    obtain ⟨j0, hj0lt, hj0v, hj0e⟩ := hinv.self_loop sub hsub l0 hl0
    have hkey := label_const_on_leaves hinv hsub hl0 hj0lt hj0v
    have hlabmem : (ufRun g.nodes.length g.edges).getD j0 0 ∈
        (ufRun g.nodes.length g.edges).dedup := by
      rw [List.mem_dedup, List.getD_eq_getElem _ _ (by rwa [hlab])]
      exact List.getElem_mem _
    have hcong : ∀ r ∈ (ufRun g.nodes.length g.edges).dedup,
        ((fun grp => decide (sub ∈ (grp.flatMap (fun i => edgesAt g i)).dedup)) ∘
          groupOf (ufRun g.nodes.length g.edges) g.nodes.length) r = true ↔
        (r == (ufRun g.nodes.length g.edges).getD j0 0) = true := by
      intro r hr
      simp only [Function.comp_apply, decide_eq_true_eq, beq_iff_eq]
      constructor
      · intro hp
        rw [List.mem_dedup, List.mem_flatMap] at hp
        obtain ⟨i, hi, hsubAt⟩ := hp
        obtain ⟨hiR, hiLab⟩ := mem_groupOf.mp hi
        rw [edgesAt, List.mem_filterMap] at hsubAt
        obtain ⟨ed, hed, heq⟩ := hsubAt
        by_cases hc : ed.1 = i ∨ ed.2.1 = i
        · rw [if_pos hc] at heq
          injection heq with heq
          have hbounds := hinv.edge_lt ed hed
          have hleafs := hinv.edge_leaf ed hed
          rw [heq] at hleafs
          have hlabEq : (ufRun g.nodes.length g.edges).getD ed.1 0 =
              (ufRun g.nodes.length g.edges).getD ed.2.1 0 :=
            ufRun_edge_eq hed hbounds.1 hbounds.2
          rcases hc with hc | hc
          · rw [← hiLab, ← hc]
            exact hkey ed.1 hbounds.1 hleafs.1
          · rw [← hiLab, ← hc]
            exact hkey ed.2.1 hbounds.2 hleafs.2
        · rw [if_neg hc] at heq
          cases heq
      · intro hq
        rw [hq]
        rw [List.mem_dedup, List.mem_flatMap]
        refine ⟨j0, mem_groupOf.mpr ⟨hj0lt, rfl⟩, ?_⟩
        rw [edgesAt, List.mem_filterMap]
        exact ⟨(j0, j0, sub), hj0e, by simp⟩
    rw [List.countP_congr hcong, ← List.count_eq_countP]
    exact List.count_eq_one_of_mem (List.nodup_dedup _) hlabmem

/-- Distinct connected components have disjoint node-weight sets. -/
theorem pairwise_components {L : Expr → List Nat} {subs : List Expr}
    {g : CGraph} (hinv : GInv L subs g) :
    (connected_components g).Pairwise
      (fun g1 g2 => ∀ i ∈ g1, ∀ j ∈ g2,
        g.nodes.getD i 0 ≠ g.nodes.getD j 0) := by
  have hsymm : ∀ {a b : List Nat},
      (∀ i ∈ a, ∀ j ∈ b, g.nodes.getD i 0 ≠ g.nodes.getD j 0) →
      (∀ i ∈ b, ∀ j ∈ a, g.nodes.getD i 0 ≠ g.nodes.getD j 0) :=
    fun h i hi j hj => (h j hj i hi).symm
  rw [List.Perm.pairwise_iff hsymm (connected_components_perm g)]
  rw [List.pairwise_map]
  have hnd : ((ufRun g.nodes.length g.edges).dedup).Pairwise (· ≠ ·) :=
    List.nodup_dedup _
  refine hnd.imp ?_
  intro r1 r2 hne i hi j hj hvals
  obtain ⟨hiR, hiLab⟩ := mem_groupOf.mp hi
  obtain ⟨hjR, hjLab⟩ := mem_groupOf.mp hj
  have : i = j := nodup_getD_inj hinv.nodup hiR hjR hvals
  rw [this] at hiLab
  exact hne (hiLab.symm.trans hjLab)

theorem mem_new_exprs {exprs : List Expr} {states inputs : List Nat} {x : Expr} :
    x ∈ (ConstraintCluster.new exprs states inputs).exprs ↔ x ∈ exprs := by
  simp [ConstraintCluster.new, List.mem_dedup]

theorem mem_new_states {exprs : List Expr} {states inputs : List Nat} {x : Nat} :
    x ∈ (ConstraintCluster.new exprs states inputs).states ↔ x ∈ states := by
  simp [ConstraintCluster.new, mem_sortDedup]

theorem mem_new_inputs {exprs : List Expr} {states inputs : List Nat} {x : Nat} :
    x ∈ (ConstraintCluster.new exprs states inputs).inputs ↔ x ∈ inputs := by
  simp [ConstraintCluster.new, mem_sortDedup]

theorem mem_new_symbols {exprs : List Expr} {states inputs : List Nat} {x : Nat}
    (h : x ∈ (ConstraintCluster.new exprs states inputs).states ∨
         x ∈ (ConstraintCluster.new exprs states inputs).inputs) :
    x ∈ states ∨ x ∈ inputs := by
  rcases h with h | h
  · exact Or.inl (mem_new_states.mp h)
  · exact Or.inr (mem_new_inputs.mp h)

/-- C3 (amended): an atomic sub-constraint of the system appears in the
`exprs` of exactly one cluster when its analyzed leaf set (sorted,
deduplicated, state-filtered in comb mode) is non-empty, and in no
cluster when that leaf set is empty. -/
theorem cluster_coverage (coiInit coiComb : Expr → List Nat)
    (sys : TransitionSystem) (init : Bool) :
    ∀ sub ∈ sys.constraints.flatMap split_conjunction,
      (analyze_constraints coiInit coiComb sys init).countP
        (fun c => decide (sub ∈ c.exprs))
      = if sortDedup (leavesFor coiInit coiComb sys init sub) = [] then 0
        else 1 := by
  intro sub hsub
  have hinv := extract_inv coiInit coiComb sys init
  have hcount := countP_components hinv hsub
  simp only [LSet] at hcount
  simp only [analyze_constraints]
  rw [List.countP_map, ← hcount]
  apply List.countP_congr
  intro grp hgrp
  simp only [Function.comp_apply, decide_eq_true_eq]
  exact mem_new_exprs.trans List.mem_dedup.symm

/-- C3 counterexample: the atomic sub-constraint `x5` (a state-only
constraint) is produced by splitting the system's constraints, yet it
appears in the `exprs` of no cluster at all in comb mode — not exactly
one. -/
theorem cluster_coverage_counterexample :
    Expr.sym 5 1 ∈ sysStateOnly.constraints.flatMap split_conjunction ∧
    (analyze_constraints freeSyms freeSyms sysStateOnly false).countP
      (fun c => decide (Expr.sym 5 1 ∈ c.exprs)) = 0 := by
  constructor
  · decide
  · decide

/-- Witness for C3 (amended) at the concrete system `sysPair`. -/
theorem cluster_coverage_witness :
    (analyze_constraints freeSyms freeSyms sysPair false).countP
      (fun c => decide (Expr.or (.sym 10 1) (.sym 0 1) 1 ∈ c.exprs))
      = if sortDedup (leavesFor freeSyms freeSyms sysPair false
            (Expr.or (.sym 10 1) (.sym 0 1) 1)) = [] then 0 else 1 :=
  cluster_coverage freeSyms freeSyms sysPair false
    (Expr.or (.sym 10 1) (.sym 0 1) 1) (by decide)

/-- Distinct clusters share no symbol handle (states or inputs). -/
theorem analyze_pairwise_symbols (coiInit coiComb : Expr → List Nat)
    (sys : TransitionSystem) (init : Bool) :
    (analyze_constraints coiInit coiComb sys init).Pairwise
      (fun c1 c2 => ∀ x, (x ∈ c1.states ∨ x ∈ c1.inputs) →
        ¬(x ∈ c2.states ∨ x ∈ c2.inputs)) := by
  have hinv := extract_inv coiInit coiComb sys init
  have hpw := pairwise_components hinv
  simp only [analyze_constraints]
  rw [List.pairwise_map]
  refine hpw.imp ?_
  intro g1 g2 hdis x hx hx2
  obtain ⟨i, hi, hix⟩ :=
    List.mem_map.mp (List.mem_partition.mpr (mem_new_symbols hx))
  obtain ⟨j, hj, hjx⟩ :=
    List.mem_map.mp (List.mem_partition.mpr (mem_new_symbols hx2))
  exact hdis i hi j hj (hix.trans hjx.symm)

/-- C4: distinct clusters produced from the same system have disjoint
`inputs`, disjoint `states`, and share no symbol at all (the components
of the constraint graph are disjoint and node weights are distinct). -/
theorem cluster_disjointness (coiInit coiComb : Expr → List Nat)
    (sys : TransitionSystem) (init : Bool) :
    (analyze_constraints coiInit coiComb sys init).Pairwise
      (fun c1 c2 =>
        (∀ x ∈ c1.inputs, x ∉ c2.inputs) ∧
        (∀ x ∈ c1.states, x ∉ c2.states) ∧
        (∀ x, (x ∈ c1.states ∨ x ∈ c1.inputs) →
          ¬(x ∈ c2.states ∨ x ∈ c2.inputs))) :=
  (analyze_pairwise_symbols coiInit coiComb sys init).imp
    (fun h =>
      ⟨fun x hx hx2 => h x (Or.inr hx) (Or.inr hx2),
       fun x hx hx2 => h x (Or.inl hx) (Or.inl hx2), h⟩)

/-- C6: in comb mode every cluster's `states` list is empty (state
leaves are dropped before graph construction), every cluster symbol is a
non-state, and an atomic sub-constraint whose filtered leaf set is
non-empty is still carried in some cluster's `exprs`. -/
theorem comb_mode_state_filtering (coiInit coiComb : Expr → List Nat)
    (sys : TransitionSystem) :
    (∀ c ∈ analyze_constraints coiInit coiComb sys false,
      c.states = [] ∧ ∀ x ∈ c.inputs, sys.isState x = false) ∧
    (∀ sub ∈ sys.constraints.flatMap split_conjunction,
      sortDedup (leavesFor coiInit coiComb sys false sub) ≠ [] →
      ∃ c ∈ analyze_constraints coiInit coiComb sys false, sub ∈ c.exprs) := by
  have hinv := extract_inv coiInit coiComb sys false
  constructor
  · intro c hc
    simp only [analyze_constraints, List.mem_map] at hc
    obtain ⟨grp, hgrp, rfl⟩ := hc
    have hlt : ∀ i ∈ grp,
        i < (extract_constraint_graph coiInit coiComb sys false).nodes.length := by
      intro i hi
      obtain ⟨r, hr, heq⟩ := mem_connected_components.mp hgrp
      rw [← heq] at hi
      exact (mem_groupOf.mp hi).1
    have hnostate : ∀ x ∈ grp.map (fun i =>
        (extract_constraint_graph coiInit coiComb sys false).nodes.getD i 0),
        sys.isState x = false := by
      intro x hx
      obtain ⟨i, hi, hix⟩ := List.mem_map.mp hx
      have hmemx : x ∈ (extract_constraint_graph coiInit coiComb sys false).nodes := by
        rw [← hix, List.getD_eq_getElem _ _ (hlt i hi)]
        exact List.getElem_mem _
      obtain ⟨e, hesub, he⟩ := hinv.node_src x hmemx
      rw [LSet, mem_sortDedup, leavesFor, if_neg (by simp)] at he
      have := (List.mem_filter.mp he).2
      simpa using this
    constructor
    · have h1 : ((grp.map (fun i =>
          (extract_constraint_graph coiInit coiComb sys false).nodes.getD i 0)).partition
            (fun s => sys.isState s)).1 = [] := by
        rw [List.partition_eq_filter_filter]
        rw [List.filter_eq_nil_iff]
        intro x hx
        simp [hnostate x hx]
      simp only [ConstraintCluster.new, h1]
      rfl
    · intro x hx
      rw [mem_new_inputs] at hx
      rw [List.partition_eq_filter_filter] at hx
      have := (List.mem_filter.mp hx).1
      exact hnostate x this
  · intro sub hsub hne
    have hcount := countP_components hinv hsub
    simp only [LSet] at hcount
    rw [if_neg hne] at hcount
    have hpos : 0 < (connected_components
        (extract_constraint_graph coiInit coiComb sys false)).countP
        (fun grp => decide (sub ∈ (grp.flatMap (fun i =>
          edgesAt (extract_constraint_graph coiInit coiComb sys false) i)).dedup)) := by
      rw [hcount]
      omega
    obtain ⟨grp, hgrp, hp⟩ := List.countP_pos_iff.mp hpos
    refine ⟨ConstraintCluster.new
        (grp.flatMap (fun i =>
          edgesAt (extract_constraint_graph coiInit coiComb sys false) i))
        ((grp.map (fun i =>
          (extract_constraint_graph coiInit coiComb sys false).nodes.getD i 0)).partition
            (fun s => sys.isState s)).1
        ((grp.map (fun i =>
          (extract_constraint_graph coiInit coiComb sys false).nodes.getD i 0)).partition
            (fun s => sys.isState s)).2, ?_, ?_⟩
    · simp only [analyze_constraints, List.mem_map]
      exact ⟨grp, hgrp, rfl⟩
    · rw [mem_new_exprs]
      simp only [decide_eq_true_eq] at hp
      exact List.mem_dedup.mp hp

/-- Witness for C6 at the concrete system `sysPair` (state symbol 10,
input symbol 0, constraint `Or(x10, x0)`): the hypotheses are discharged
concretely and the constraint is still carried by a cluster. -/
theorem comb_mode_state_filtering_witness :
    Expr.or (.sym 10 1) (.sym 0 1) 1 ∈
        sysPair.constraints.flatMap split_conjunction ∧
    sortDedup (leavesFor freeSyms freeSyms sysPair false
        (Expr.or (.sym 10 1) (.sym 0 1) 1)) ≠ [] ∧
    ∃ c ∈ analyze_constraints freeSyms freeSyms sysPair false,
      Expr.or (.sym 10 1) (.sym 0 1) 1 ∈ c.exprs :=
  ⟨by decide, by decide,
    (comb_mode_state_filtering freeSyms freeSyms sysPair).2
      (Expr.or (.sym 10 1) (.sym 0 1) 1) (by decide) (by decide)⟩

/-! ### C7, C8: the input sampler -/

/-- C7: `randomize_symbol` on a symbol of bit-vector width over 64 bits
or of array type raises an explicit "not implemented" error (`todo!`
panic) and never returns a written simulator state; success is possible
only for bit-vector symbols of width ≤ 64. -/
theorem randomize_symbol_unsupported (ctx : Context) (rng : Rng)
    (symbol : Nat) (sim : Sim) :
    (ctx.ty symbol = none →
      randomize_symbol ctx rng symbol sim =
        .error "todo: support array type inputs") ∧
    (∀ w, ctx.ty symbol = some w → 64 < w →
      randomize_symbol ctx rng symbol sim =
        .error "todo: generate value wider than 64-bit") ∧
    (∀ r, randomize_symbol ctx rng symbol sim = .ok r →
      ∃ w, ctx.ty symbol = some w ∧ w ≤ 64) := by
  refine ⟨?_, ?_, ?_⟩
  · intro h
    simp [randomize_symbol, h]
  · intro w h hw
    simp only [randomize_symbol, h]
    rw [if_neg (by omega)]
  · intro r h
    match hty : ctx.ty symbol with
    | some w =>
      refine ⟨w, rfl, ?_⟩
      by_contra hw
      simp only [randomize_symbol, hty] at h
      rw [if_neg hw] at h
      cases h
    | none =>
      simp only [randomize_symbol, hty] at h
      cases h

/-- Witness for C7 at an array-typed symbol and at a 128-bit symbol. -/
theorem randomize_symbol_unsupported_witness :
    randomize_symbol ⟨fun _ => none⟩ ⟨fun _ => 0, 0⟩ 0 ⟨fun _ => 0⟩
        = .error "todo: support array type inputs" ∧
    randomize_symbol ⟨fun _ => some 128⟩ ⟨fun _ => 0, 0⟩ 0 ⟨fun _ => 0⟩
        = .error "todo: generate value wider than 64-bit" :=
  ⟨(randomize_symbol_unsupported ⟨fun _ => none⟩ ⟨fun _ => 0, 0⟩ 0
      ⟨fun _ => 0⟩).1 rfl,
   (randomize_symbol_unsupported ⟨fun _ => some 128⟩ ⟨fun _ => 0, 0⟩ 0
      ⟨fun _ => 0⟩).2.1 128 rfl (by omega)⟩

/-- C8: for a bit-vector symbol of width w ≤ 64 the sampler draws one
uniform 64-bit word, masks it with `mask w` and writes the result via
`sim.set`, so the written value is below `2 ^ w`. -/
theorem sampling_width_bound (ctx : Context) (rng : Rng) (symbol : Nat)
    (sim : Sim) (w : Nat) (hty : ctx.ty symbol = some w) (hw : w ≤ 64) :
    randomize_symbol ctx rng symbol sim =
      .ok (rng.next.2, sim.set symbol (rng.next.1 &&& mask w)) ∧
    rng.next.1 &&& mask w < 2 ^ w ∧
    (sim.set symbol (rng.next.1 &&& mask w)).σ symbol < 2 ^ w := by
  have hm : mask w < 2 ^ w := by
    have : 0 < 2 ^ w := Nat.pos_pow_of_pos w (by omega)
    simp only [mask]
    omega
  have hv : rng.next.1 &&& mask w < 2 ^ w :=
    lt_of_le_of_lt Nat.and_le_right hm
  refine ⟨by simp [randomize_symbol, hty, hw], hv, ?_⟩
  simpa [Sim.set] using hv

/-- Witness for C8 at a concrete width-8 symbol and draw. -/
theorem sampling_width_bound_witness :
    randomize_symbol ⟨fun _ => some 8⟩ ⟨fun _ => 25000, 0⟩ 3 ⟨fun _ => 0⟩ =
      .ok ((⟨fun _ => 25000, 0⟩ : Rng).next.2,
        Sim.set ⟨fun _ => 0⟩ 3 ((⟨fun _ => 25000, 0⟩ : Rng).next.1 &&& mask 8)) ∧
    (⟨fun _ => 25000, 0⟩ : Rng).next.1 &&& mask 8 < 2 ^ 8 ∧
    (Sim.set ⟨fun _ => 0⟩ 3 ((⟨fun _ => 25000, 0⟩ : Rng).next.1 &&& mask 8)).σ 3
      < 2 ^ 8 :=
  sampling_width_bound ⟨fun _ => some 8⟩ ⟨fun _ => 25000, 0⟩ 3 ⟨fun _ => 0⟩ 8
    rfl (by omega)

/-- C9 evaluated at the failing input: when the cycle budget is reached
the search returns Unknown, but it has printed
"Exciting after executing 1 cycles." to stdout — the output is not
empty, contradicting the claim that Unknown produces no output. -/
theorem unknown_prints_output :
    random_testing freeSyms freeSyms ⟨fun _ => some 1⟩ sys9 opts9
        (fun _ => 0) 1 2
      = some (.ok (.Unknown, ["Exciting after executing 1 cycles."])) ∧
    (["Exciting after executing 1 cycles."] : List String) ≠ [] := by
  exact ⟨rfl, by simp⟩

/-- C5 evaluated at the failing input: `record_witness` appends the
words of **every** state to `state_init` — under a simulator valuing
state 0 at 0 and state 1 at 1 it records `[0, 1]`, including the
computed-init state 0, where the claim requires only the free-init
state's `[1]`. -/
theorem state_init_includes_computed_init_states :
    record_witness ⟨fun _ => some 1⟩ sysC5 [] [] [] ⟨fun i => i⟩
        ⟨fun _ => 0, 0⟩ 0 [0] 1
      = some (.ok ⟨[], [0, 1], 0, [0]⟩) := by
  rfl

/-! ### C10: the sampled inputs partition -/

theorem sampleSyms_writes (ctx : Context) :
    ∀ (syms : List Nat) (rng : Rng) (sim : Sim) {rng2 : Rng} {sim2 : Sim}
      {ws : List (Nat × Nat)},
      sampleSyms ctx rng sim syms = .ok (rng2, sim2, ws) →
      ws.map Prod.fst = syms := by
  intro syms
  induction syms with
  | nil =>
    intro rng sim rng2 sim2 ws h
    rw [sampleSyms] at h
    cases h
    rfl
  | cons s rest ih =>
    intro rng sim rng2 sim2 ws h
    rw [sampleSyms] at h
    match h1 : randomize_symbol ctx rng s sim with
    | .error m => rw [h1] at h; cases h
    | .ok (rng1, sim1) =>
      rw [h1] at h
      dsimp only at h
      match h2 : sampleSyms ctx rng1 sim1 rest with
      | .error m => rw [h2] at h; cases h
      | .ok (rng3, sim3, ws3) =>
        rw [h2] at h
        dsimp only at h
        cases h
        simp [ih rng1 sim1 h2]

theorem clusterLoop_writes (ctx : Context) (cl : ConstraintCluster) :
    ∀ (fuel : Nat) (rng : Rng) (sim : Sim) {rng2 : Rng} {sim2 : Sim}
      {ws : List (Nat × Nat)},
      clusterLoop ctx cl fuel rng sim = some (.ok (rng2, sim2, ws)) →
      ws.map Prod.fst = cl.inputs := by
  intro fuel
  induction fuel with
  | zero => intro rng sim rng2 sim2 ws h; cases h
  | succ fuel ih =>
    intro rng sim rng2 sim2 ws h
    rw [clusterLoop] at h
    match h1 : sampleSyms ctx rng sim cl.inputs with
    | .error m => rw [h1] at h; cases h
    | .ok (rng1, sim1, ws1) =>
      rw [h1] at h
      dsimp only at h
      by_cases hc : checkExprs sim1 cl.exprs
      · rw [if_pos hc] at h
        cases h
        exact sampleSyms_writes ctx cl.inputs rng sim h1
      · rw [if_neg hc] at h
        exact ih rng1 sim1 h

theorem randomize_clusters_writes (ctx : Context) (fuel : Nat) :
    ∀ (cs : List ConstraintCluster) (rng : Rng) (sim : Sim) {rng2 : Rng}
      {sim2 : Sim} {ws : List (Nat × Nat)},
      randomize_clusters ctx fuel cs rng sim = some (.ok (rng2, sim2, ws)) →
      ws.map Prod.fst = cs.flatMap (fun c => c.inputs) := by
  intro cs
  induction cs with
  | nil =>
    intro rng sim rng2 sim2 ws h
    rw [randomize_clusters] at h
    cases h
    rfl
  | cons cl rest ih =>
    intro rng sim rng2 sim2 ws h
    rw [randomize_clusters] at h
    match h1 : clusterLoop ctx cl fuel rng sim with
    | none => rw [h1] at h; cases h
    | some (.error m) => rw [h1] at h; cases h
    | some (.ok (rng1, sim1, ws1)) =>
      rw [h1] at h
      dsimp only at h
      match h2 : randomize_clusters ctx fuel rest rng1 sim1 with
      | none => rw [h2] at h; cases h
      | some (.error m) => rw [h2] at h; cases h
      | some (.ok (rng3, sim3, ws3)) =>
        rw [h2] at h
        dsimp only at h
        cases h
        rw [List.flatMap_cons, List.map_append,
          clusterLoop_writes ctx cl fuel rng sim h1, ih rng1 sim1 h2]

theorem randomize_inputs_writes (ctx : Context)
    (constraints : List ConstraintCluster) (unconstrained : List Nat)
    (rng : Rng) (sim : Sim) (fuel : Nat) {rng2 : Rng} {sim2 : Sim}
    {ws : List (Nat × Nat)}
    (h : randomize_inputs ctx rng constraints unconstrained sim fuel
      = some (.ok (rng2, sim2, ws))) :
    ws.map Prod.fst
      = constraints.flatMap (fun c => c.inputs) ++ unconstrained := by
  rw [randomize_inputs] at h
  match h1 : randomize_clusters ctx fuel constraints rng sim with
  | none => rw [h1] at h; cases h
  | some (.error m) => rw [h1] at h; cases h
  | some (.ok (rng1, sim1, ws1)) =>
    rw [h1] at h
    dsimp only at h
    match h2 : sampleSyms ctx rng1 sim1 unconstrained with
    | .error m => rw [h2] at h; cases h
    | .ok (rng3, sim3, ws3) =>
      rw [h2] at h
      dsimp only at h
      cases h
      rw [List.map_append, randomize_clusters_writes ctx fuel constraints rng sim h1,
        sampleSyms_writes ctx unconstrained rng1 sim1 h2]

theorem analyze_inputs_nodup (coiInit coiComb : Expr → List Nat)
    (sys : TransitionSystem) (init : Bool) :
    ∀ c ∈ analyze_constraints coiInit coiComb sys init, c.inputs.Nodup := by
  intro c hc
  simp only [analyze_constraints, List.mem_map] at hc
  obtain ⟨grp, hgrp, rfl⟩ := hc
  exact List.nodup_dedup _

/-- Under the well-formedness assumption that the comb-mode cone of
influence of every analyzed sub-constraint mentions only declared
symbols, every cluster input is an input signal of the system. -/
theorem analyze_inputs_subset (coiInit coiComb : Expr → List Nat)
    (sys : TransitionSystem)
    (hcoi : ∀ sub ∈ sys.constraints.flatMap split_conjunction,
      ∀ x ∈ coiComb sub, x ∈ sys.stateIds ∨ x ∈ sys.inputIds) :
    ∀ c ∈ analyze_constraints coiInit coiComb sys false,
      ∀ x ∈ c.inputs, x ∈ sys.inputIds := by
  have hinv := extract_inv coiInit coiComb sys false
  intro c hc x hx
  simp only [analyze_constraints, List.mem_map] at hc
  obtain ⟨grp, hgrp, rfl⟩ := hc
  rw [mem_new_inputs, List.partition_eq_filter_filter] at hx
  obtain ⟨hxs, hxns⟩ := List.mem_filter.mp hx
  obtain ⟨i, hi, hix⟩ := List.mem_map.mp hxs
  have hmemx : x ∈ (extract_constraint_graph coiInit coiComb sys false).nodes := by
    rw [← hix, List.getD_eq_getElem _ _ (mem_components_lt hgrp i hi)]
    exact List.getElem_mem _
  obtain ⟨sub, hsub, hxsub⟩ := hinv.node_src x hmemx
  rw [LSet, mem_sortDedup, leavesFor, if_neg (by simp)] at hxsub
  have hco := (List.mem_filter.mp hxsub).1
  rcases hcoi sub hsub x hco with hst | hin
  · exfalso
    simp only [Function.comp_apply, Bool.not_eq_true'] at hxns
    have : sys.isState x = true := by
      simp [TransitionSystem.isState, hst]
    simp [this] at hxns
  · exact hin

theorem nodup_flatMap_inputs :
    ∀ {cs : List ConstraintCluster},
      (∀ c ∈ cs, c.inputs.Nodup) →
      cs.Pairwise (fun c1 c2 => ∀ x ∈ c1.inputs, x ∉ c2.inputs) →
      (cs.flatMap (fun c => c.inputs)).Nodup := by
  intro cs
  induction cs with
  | nil => intro _ _; simp
  | cons cl rest ih =>
    intro hn hp
    rw [List.flatMap_cons, List.nodup_append]
    obtain ⟨hp1, hp2⟩ := List.pairwise_cons.mp hp
    refine ⟨hn cl (List.mem_cons_self _ _), ih (fun c hc => hn c (List.mem_cons_of_mem _ hc)) hp2, ?_⟩
    intro x hx hx2
    rw [List.mem_flatMap] at hx2
    obtain ⟨c, hc, hxc⟩ := hx2
    exact hp1 c hc x hx hxc

/-- C10: the cluster inputs and `unconstrained_inputs` computed by
`random_testing` partition the sampled inputs — no input occurs both in
a cluster and among the unconstrained ones, every input signal of the
system occurs in one of the two — and consequently every successful
`randomize_inputs` call writes (after the last accepted rejection round
of each cluster) a freshly drawn value to every input signal of the
system exactly once: the accepted write log is a permutation of the
system's input list. -/
theorem input_sampling_partition (coiInit coiComb : Expr → List Nat)
    (ctx : Context) (sys : TransitionSystem)
    (hcoi : ∀ sub ∈ sys.constraints.flatMap split_conjunction,
      ∀ x ∈ coiComb sub, x ∈ sys.stateIds ∨ x ∈ sys.inputIds)
    (hnodup : sys.inputIds.Nodup) :
    (∀ x, x ∈ constrainedInputs coiInit coiComb sys →
      x ∉ unconstrainedInputs coiInit coiComb sys) ∧
    (∀ x ∈ sys.inputIds, x ∈ constrainedInputs coiInit coiComb sys ∨
      x ∈ unconstrainedInputs coiInit coiComb sys) ∧
    (∀ (fuel : Nat) (rng : Rng) (sim : Sim) (rng2 : Rng) (sim2 : Sim)
      (ws : List (Nat × Nat)),
      randomize_inputs ctx rng (analyze_constraints coiInit coiComb sys false)
          (unconstrainedInputs coiInit coiComb sys) sim fuel
        = some (.ok (rng2, sim2, ws)) →
      (ws.map Prod.fst).Perm sys.inputIds) := by
  have hflat : constrainedInputs coiInit coiComb sys
      = (analyze_constraints coiInit coiComb sys false).flatMap
          (fun c => c.inputs) := by
    rw [constrainedInputs, List.flatMap_def]
  have hdisj : ∀ x, x ∈ constrainedInputs coiInit coiComb sys →
      x ∉ unconstrainedInputs coiInit coiComb sys := by
    intro x hx hx2
    rw [unconstrainedInputs, List.mem_filter] at hx2
    have h2 := hx2.2
    simp at h2
    exact h2 hx
  have hcover : ∀ x ∈ sys.inputIds,
      x ∈ constrainedInputs coiInit coiComb sys ∨
      x ∈ unconstrainedInputs coiInit coiComb sys := by
    intro x hx
    by_cases hc : x ∈ constrainedInputs coiInit coiComb sys
    · exact Or.inl hc
    · refine Or.inr ?_
      rw [unconstrainedInputs, List.mem_filter]
      refine ⟨hx, ?_⟩
      simp
      exact hc
  refine ⟨hdisj, hcover, ?_⟩
  intro fuel rng sim rng2 sim2 ws h
  have hws := randomize_inputs_writes ctx _ _ rng sim fuel h
  rw [hws]
  -- the accepted write symbols are exactly the constrained ++ unconstrained
  have hsub : ∀ x ∈ (analyze_constraints coiInit coiComb sys false).flatMap
      (fun c => c.inputs), x ∈ sys.inputIds := by
    intro x hx
    rw [List.mem_flatMap] at hx
    obtain ⟨c, hc, hxc⟩ := hx
    exact analyze_inputs_subset coiInit coiComb sys hcoi c hc x hxc
  have hndL : ((analyze_constraints coiInit coiComb sys false).flatMap
      (fun c => c.inputs)).Nodup :=
    nodup_flatMap_inputs (analyze_inputs_nodup coiInit coiComb sys false)
      ((analyze_pairwise_symbols coiInit coiComb sys false).imp
        (fun h x hx hx2 => h x (Or.inr hx) (Or.inr hx2)))
  have hndU : (unconstrainedInputs coiInit coiComb sys).Nodup :=
    hnodup.filter _
  have hndAll : ((analyze_constraints coiInit coiComb sys false).flatMap
      (fun c => c.inputs) ++ unconstrainedInputs coiInit coiComb sys).Nodup := by
    rw [List.nodup_append]
    refine ⟨hndL, hndU, ?_⟩
    intro x hx
    rw [← hflat] at hx
    exact hdisj x hx
  rw [List.perm_ext_iff_of_nodup hndAll hnodup]
  intro a
  rw [List.mem_append]
  constructor
  · rintro (ha | ha)
    · exact hsub a ha
    · exact (List.mem_filter.mp ha).1
  · intro ha
    rcases hcover a ha with hc | hc
    · rw [hflat] at hc
      exact Or.inl hc
    · exact Or.inr hc

theorem wordsOf_le64 {v w : Nat} (h1 : 1 ≤ w) (h2 : w ≤ 64) (hv : v < 2 ^ w) :
    wordsOf v w = [v] := by
  have hq : (w + 63) / 64 = 1 := by omega
  have hlt : v < 2 ^ 64 :=
    lt_of_lt_of_le hv (Nat.pow_le_pow_right (by omega) h2)
  simp only [wordsOf, hq, List.range_succ, List.range_zero, List.nil_append,
    List.map_cons, List.map_nil, Nat.mul_zero, Nat.shiftRight_zero]
  rw [Nat.mod_eq_of_lt hlt]

theorem wordsFlat_eq {β : Type} (val : β → Nat) (wd : β → Nat) :
    ∀ (l : List β), (∀ p ∈ l, 1 ≤ wd p ∧ wd p ≤ 64) →
      (l.map (fun p => wordsOf (val p % 2 ^ wd p) (wd p))).flatten
        = l.map (fun p => val p % 2 ^ wd p) := by
  intro l
  induction l with
  | nil => intro _; rfl
  | cons p rest ih =>
    intro h
    obtain ⟨h1, h2⟩ := h p (List.mem_cons_self p rest)
    have hv : val p % 2 ^ wd p < 2 ^ wd p :=
      Nat.mod_lt _ (Nat.pos_pow_of_pos _ (by omega))
    simp only [List.map_cons, List.flatten_cons]
    rw [wordsOf_le64 h1 h2 hv, ih (fun q hq => h q (List.mem_cons_of_mem _ hq))]
    rfl

theorem inputRead_eq (sys : TransitionSystem) (sim : Sim)
    (hw : ∀ p ∈ sys.inputs, 1 ≤ p.2 ∧ p.2 ≤ 64) :
    inputRead sys sim = sys.inputs.map (fun p => sim.σ p.1 % 2 ^ p.2) := by
  have h := wordsFlat_eq (fun p : Nat × Nat => sim.σ p.1) (fun p => p.2)
    sys.inputs hw
  exact Eq.trans (by rfl) h

theorem inputRead_length (sys : TransitionSystem) (sim : Sim)
    (hw : ∀ p ∈ sys.inputs, 1 ≤ p.2 ∧ p.2 ≤ 64) :
    (inputRead sys sim).length = sys.inputs.length := by
  rw [inputRead_eq sys sim hw, List.length_map]

theorem stateRead_eq (sys : TransitionSystem) (sim : Sim)
    (hw : ∀ st ∈ sys.states, 1 ≤ st.width ∧ st.width ≤ 64) :
    stateRead sys sim
      = sys.states.map (fun st => sim.σ st.symbol % 2 ^ st.width) := by
  have h := wordsFlat_eq (fun st : SysState => sim.σ st.symbol)
    (fun st => st.width) sys.states hw
  exact Eq.trans (by rfl) h

theorem setFromData_notMem (x : Nat) :
    ∀ (syms : List (Nat × Nat)) (data : List Nat) (sim : Sim),
      x ∉ syms.map Prod.fst → (setFromData sim syms data).σ x = sim.σ x := by
  intro syms
  induction syms with
  | nil => intro data sim _; rfl
  | cons p rest ih =>
    intro data sim hx
    cases data with
    | nil => rfl
    | cons d ds =>
      simp only [List.map_cons, List.mem_cons, not_or] at hx
      have : setFromData sim (p :: rest) (d :: ds)
          = setFromData (sim.set p.1 d) rest ds := rfl
      rw [this, ih ds (sim.set p.1 d) hx.2]
      simp [Sim.set, hx.1]

theorem setFromData_map (f : Nat × Nat → Nat) :
    ∀ (syms : List (Nat × Nat)) (sim : Sim), (syms.map Prod.fst).Nodup →
      ∀ p ∈ syms, (setFromData sim syms (syms.map f)).σ p.1 = f p := by
  intro syms
  induction syms with
  | nil => intro sim _ p hp; simp at hp
  | cons q rest ih =>
    intro sim hnd p hp
    simp only [List.map_cons, List.nodup_cons] at hnd
    have hstep : setFromData sim (q :: rest) ((q :: rest).map f)
        = setFromData (sim.set q.1 (f q)) rest (rest.map f) := rfl
    rw [hstep]
    rcases List.mem_cons.mp hp with rfl | hp
    · rw [setFromData_notMem p.1 rest (rest.map f) _ hnd.1]
      simp [Sim.set]
    · exact ih (sim.set q.1 (f q)) hnd.2 p hp

theorem step_state (sys : TransitionSystem) (sim : Sim) {st : SysState}
    (hst : st ∈ sys.states) (hnd : sys.stateIds.Nodup) :
    (Sim.step sys sim).σ st.symbol = evalE sim.σ st.next := by
  simp only [Sim.step]
  match hf : sys.states.find? (fun s => s.symbol == st.symbol) with
  | none =>
    rw [List.find?_eq_none] at hf
    exact absurd (by simp) (hf st hst)
  | some st2 =>
    have h1 := List.find?_some hf
    have h2 := List.mem_of_find?_eq_some hf
    simp only [beq_iff_eq] at h1
    have he : st2 = st :=
      List.inj_on_of_nodup_map hnd h2 hst h1
    rw [hf]
    dsimp only
    rw [he]

theorem step_nonstate (sys : TransitionSystem) (sim : Sim) {x : Nat}
    (hx : x ∉ sys.stateIds) : (Sim.step sys sim).σ x = sim.σ x := by
  simp only [Sim.step]
  match hf : sys.states.find? (fun s => s.symbol == x) with
  | none =>
    rw [hf]
  | some st2 =>
    exfalso
    have h1 := List.find?_some hf
    have h2 := List.mem_of_find?_eq_some hf
    simp only [beq_iff_eq] at h1
    exact hx (h1 ▸ List.mem_map_of_mem (fun s => s.symbol) h2)

theorem evalE_congr {sys : TransitionSystem} {s1 s2 : Sim}
    (h : agreeOn sys s1 s2) :
    ∀ e, symWidthOk sys e = true → evalE s1.σ e = evalE s2.σ e := by
  intro e he
  induction e with
  | sym i w => simp only [evalE]; rw [h i w he]
  | lit v w => rfl
  | and a b w iha ihb =>
    simp only [symWidthOk, Bool.and_eq_true] at he
    simp only [evalE, iha he.1, ihb he.2]
  | or a b w iha ihb =>
    simp only [symWidthOk, Bool.and_eq_true] at he
    simp only [evalE, iha he.1, ihb he.2]
  | not a w iha =>
    simp only [symWidthOk] at he
    simp only [evalE, iha he]
  | eq a b w iha ihb =>
    simp only [symWidthOk, Bool.and_eq_true] at he
    simp only [evalE, iha he.1, ihb he.2]

theorem check_congr {sys : TransitionSystem} {s1 s2 : Sim}
    (h : agreeOn sys s1 s2) (bs : List Expr)
    (hb : ∀ b ∈ bs, symWidthOk sys b = true) :
    check_for_bad_states bs s1 = check_for_bad_states bs s2 := by
  rw [check_for_bad_states, check_for_bad_states]
  apply List.filterMap_congr
  intro p hp
  have hmem : p.2 ∈ bs := by
    have := List.mem_map_of_mem Prod.snd hp
    rwa [List.enum_map_snd] at this
  rw [evalE_congr h p.2 (hb p.2 hmem)]

theorem check_mem_eval {bs : List Expr} {s : Sim} {b : Nat}
    (h : b ∈ check_for_bad_states bs s) :
    evalE s.σ (bs.getD b (Expr.lit 0 1)) = 1 := by
  rw [check_for_bad_states, List.mem_filterMap] at h
  obtain ⟨p, hp, heq⟩ := h
  by_cases hc : evalE s.σ p.2 = 1
  · rw [if_pos hc] at heq
    injection heq with heq
    obtain ⟨hlt, hval⟩ := List.mem_enum (x := p.2) (i := p.1) (by
      rw [show (p.1, p.2) = p from rfl]; exact hp)
    rw [← heq, List.getD_eq_getElem _ _ hlt, ← hval]
    exact hc
  · rw [if_neg hc] at heq
    cases heq

theorem randomize_symbol_untouched {ctx : Context} {rng : Rng} {s : Nat}
    {sim : Sim} {rng1 : Rng} {sim1 : Sim}
    (h : randomize_symbol ctx rng s sim = .ok (rng1, sim1)) :
    ∀ x, x ≠ s → sim1.σ x = sim.σ x := by
  intro x hx
  rw [randomize_symbol] at h
  match hty : ctx.ty s with
  | some w =>
    rw [hty] at h
    dsimp only at h
    by_cases hw : w ≤ 64
    · rw [if_pos hw] at h
      cases h
      simp [Sim.set, hx]
    · rw [if_neg hw] at h
      cases h
  | none =>
    rw [hty] at h
    cases h

theorem sampleSyms_untouched (ctx : Context) :
    ∀ (syms : List Nat) (rng : Rng) (sim : Sim) {rng2 : Rng} {sim2 : Sim}
      {ws : List (Nat × Nat)},
      sampleSyms ctx rng sim syms = .ok (rng2, sim2, ws) →
      ∀ x, x ∉ syms → sim2.σ x = sim.σ x := by
  intro syms
  induction syms with
  | nil =>
    intro rng sim rng2 sim2 ws h x _
    rw [sampleSyms] at h
    cases h
    rfl
  | cons s rest ih =>
    intro rng sim rng2 sim2 ws h x hx
    simp only [List.mem_cons, not_or] at hx
    rw [sampleSyms] at h
    match h1 : randomize_symbol ctx rng s sim with
    | .error m => rw [h1] at h; cases h
    | .ok (rng1, sim1) =>
      rw [h1] at h
      dsimp only at h
      match h2 : sampleSyms ctx rng1 sim1 rest with
      | .error m => rw [h2] at h; cases h
      | .ok (rng3, sim3, ws3) =>
        rw [h2] at h
        dsimp only at h
        cases h
        rw [ih rng1 sim1 h2 x hx.2, randomize_symbol_untouched h1 x hx.1]

theorem clusterLoop_untouched (ctx : Context) (cl : ConstraintCluster) :
    ∀ (fuel : Nat) (rng : Rng) (sim : Sim) {rng2 : Rng} {sim2 : Sim}
      {ws : List (Nat × Nat)},
      clusterLoop ctx cl fuel rng sim = some (.ok (rng2, sim2, ws)) →
      ∀ x, x ∉ cl.inputs → sim2.σ x = sim.σ x := by
  intro fuel
  induction fuel with
  | zero => intro rng sim rng2 sim2 ws h; cases h
  | succ fuel ih =>
    intro rng sim rng2 sim2 ws h x hx
    rw [clusterLoop] at h
    match h1 : sampleSyms ctx rng sim cl.inputs with
    | .error m => rw [h1] at h; cases h
    | .ok (rng1, sim1, ws1) =>
      rw [h1] at h
      dsimp only at h
      by_cases hc : checkExprs sim1 cl.exprs
      · rw [if_pos hc] at h
        cases h
        exact sampleSyms_untouched ctx cl.inputs rng sim h1 x hx
      · rw [if_neg hc] at h
        rw [ih rng1 sim1 h x hx,
          sampleSyms_untouched ctx cl.inputs rng sim h1 x hx]

theorem randomize_clusters_untouched (ctx : Context) (fuel : Nat) :
    ∀ (cs : List ConstraintCluster) (rng : Rng) (sim : Sim) {rng2 : Rng}
      {sim2 : Sim} {ws : List (Nat × Nat)},
      randomize_clusters ctx fuel cs rng sim = some (.ok (rng2, sim2, ws)) →
      ∀ x, x ∉ cs.flatMap (fun c => c.inputs) → sim2.σ x = sim.σ x := by
  intro cs
  induction cs with
  | nil =>
    intro rng sim rng2 sim2 ws h x _
    rw [randomize_clusters] at h
    cases h
    rfl
  | cons cl rest ih =>
    intro rng sim rng2 sim2 ws h x hx
    rw [List.flatMap_cons, List.mem_append, not_or] at hx
    rw [randomize_clusters] at h
    match h1 : clusterLoop ctx cl fuel rng sim with
    | none => rw [h1] at h; cases h
    | some (.error m) => rw [h1] at h; cases h
    | some (.ok (rng1, sim1, ws1)) =>
      rw [h1] at h
      dsimp only at h
      match h2 : randomize_clusters ctx fuel rest rng1 sim1 with
      | none => rw [h2] at h; cases h
      | some (.error m) => rw [h2] at h; cases h
      | some (.ok (rng3, sim3, ws3)) =>
        rw [h2] at h
        dsimp only at h
        cases h
        rw [ih rng1 sim1 h2 x hx.2,
          clusterLoop_untouched ctx cl fuel rng sim h1 x hx.1]

theorem randomize_inputs_untouched {ctx : Context} {rng : Rng}
    {constraints : List ConstraintCluster} {unconstrained : List Nat}
    {sim : Sim} {fuel : Nat} {rng2 : Rng} {sim2 : Sim} {ws : List (Nat × Nat)}
    (h : randomize_inputs ctx rng constraints unconstrained sim fuel
      = some (.ok (rng2, sim2, ws))) :
    ∀ x, x ∉ constraints.flatMap (fun c => c.inputs) → x ∉ unconstrained →
      sim2.σ x = sim.σ x := by
  intro x hx1 hx2
  rw [randomize_inputs] at h
  match h1 : randomize_clusters ctx fuel constraints rng sim with
  | none => rw [h1] at h; cases h
  | some (.error m) => rw [h1] at h; cases h
  | some (.ok (rng1, sim1, ws1)) =>
    rw [h1] at h
    dsimp only at h
    match h2 : sampleSyms ctx rng1 sim1 unconstrained with
    | .error m => rw [h2] at h; cases h
    | .ok (rng3, sim3, ws3) =>
      rw [h2] at h
      dsimp only at h
      cases h
      rw [sampleSyms_untouched ctx unconstrained rng1 sim1 h2 x hx2,
        randomize_clusters_untouched ctx fuel constraints rng sim h1 x hx1]

theorem inputChunk_zero_append {sys : TransitionSystem} {cyc rest : List Nat}
    (hlen : cyc.length = sys.inputs.length) :
    inputChunk sys (cyc ++ rest) 0 = cyc := by
  simp only [inputChunk, Nat.zero_mul, List.drop_zero]
  rw [← hlen, List.take_left]

theorem inputChunk_succ_append {sys : TransitionSystem} {cyc rest : List Nat}
    (hlen : cyc.length = sys.inputs.length) (j : Nat) :
    inputChunk sys (cyc ++ rest) (j + 1) = inputChunk sys rest j := by
  simp only [inputChunk]
  rw [show (j + 1) * sys.inputs.length
      = sys.inputs.length + j * sys.inputs.length by ring]
  rw [← hlen, List.drop_append]

theorem redriveFrom_shift (sys : TransitionSystem) (simR : Sim)
    (cyc rest : List Nat) (hlen : cyc.length = sys.inputs.length) :
    ∀ j, redriveFrom sys simR (cyc ++ rest) (j + 1)
      = redriveFrom sys (Sim.step sys (setFromData simR sys.inputs cyc)) rest j := by
  intro j
  induction j with
  | zero =>
    rw [redriveFrom, redriveFrom, redriveFrom]
    rw [inputChunk_succ_append hlen 0, inputChunk_zero_append hlen]
  | succ j ih =>
    rw [redriveFrom, ih, inputChunk_succ_append hlen (j + 1)]
    rw [show redriveFrom sys (Sim.step sys (setFromData simR sys.inputs cyc))
        rest (j + 1) = setFromData (Sim.step sys (redriveFrom sys
          (Sim.step sys (setFromData simR sys.inputs cyc)) rest j))
        sys.inputs (inputChunk sys rest (j + 1)) from rfl]

/-- The central replay/re-drive agreement: if `m` sampled cycles succeed
from `(rng, sim)` producing the recorded data `t`, and the re-driven
simulator `simR` agrees with `sim` on the states, then at every cycle
`j < m` the post-sampling simulator of the run and the re-driven
simulator fed with `t` agree on every declared symbol. -/
theorem replay_redrive (ctx : Context) (sys : TransitionSystem)
    (constraints : List ConstraintCluster) (unconstrained : List Nat)
    (fuel : Nat)
    (hw_in : ∀ p ∈ sys.inputs, 1 ≤ p.2 ∧ p.2 ≤ 64)
    (hnodup : (sys.stateIds ++ sys.inputIds).Nodup)
    (hnext : ∀ st ∈ sys.states, symWidthOk sys st.next = true)
    (hwrites : ∀ x, x ∈ constraints.flatMap (fun c => c.inputs) ∨
      x ∈ unconstrained → x ∈ sys.inputIds) :
    ∀ (m : Nat) (rng : Rng) (sim simR : Sim) (t : List Nat),
      trajData ctx sys constraints unconstrained fuel m rng sim = some t →
      stAgree sys sim simR →
      t.length = m * sys.inputs.length ∧
      ∀ j, j < m →
        ∃ rngj simj rng1 sim1 ws,
          trajSim ctx sys constraints unconstrained fuel j rng sim
            = some (rngj, simj) ∧
          randomize_inputs ctx rngj constraints unconstrained simj fuel
            = some (.ok (rng1, sim1, ws)) ∧
          agreeOn sys sim1 (redriveFrom sys simR t j) := by
  have hnd3 := List.nodup_append.mp hnodup
  intro m
  induction m with
  | zero =>
    intro rng sim simR t ht hag
    rw [trajData] at ht
    cases ht
    exact ⟨by simp, fun j hj => absurd hj (by omega)⟩
  | succ m ih =>
    intro rng sim simR t ht hag
    rw [trajData] at ht
    match h1 : randomize_inputs ctx rng constraints unconstrained sim fuel with
    | none => rw [h1] at ht; cases ht
    | some (.error e) => rw [h1] at ht; cases ht
    | some (.ok (rng1, sim1, ws1)) =>
      rw [h1] at ht
      dsimp only at ht
      match h2 : trajData ctx sys constraints unconstrained fuel m rng1
          (Sim.step sys sim1) with
      | none => rw [h2] at ht; cases ht
      | some rest =>
        rw [h2] at ht
        dsimp only at ht
        cases ht
        have hreadlen : (inputRead sys sim1).length = sys.inputs.length :=
          inputRead_length sys sim1 hw_in
        have hfstnd : (sys.inputs.map Prod.fst).Nodup := hnd3.2.1
        -- the post-sampling simulator of cycle 0 agrees with the
        -- re-driven simulator after applying chunk 0
        have h0eq : redriveFrom sys simR (inputRead sys sim1 ++ rest) 0
            = setFromData simR sys.inputs (inputRead sys sim1) := by
          rw [redriveFrom, inputChunk_zero_append hreadlen]
        have hag0 : agreeOn sys sim1
            (redriveFrom sys simR (inputRead sys sim1 ++ rest) 0) := by
          intro x w hdecl
          rw [h0eq, inputRead_eq sys sim1 hw_in]
          rw [declaredB, Bool.or_eq_true] at hdecl
          rcases hdecl with hstd | hind
          · rw [List.any_eq_true] at hstd
            obtain ⟨st, hstmem, hsteq⟩ := hstd
            simp only [Bool.and_eq_true, beq_iff_eq] at hsteq
            obtain ⟨hsx, hsw⟩ := hsteq
            have hxst : x ∈ sys.stateIds := by
              rw [← hsx]
              exact List.mem_map_of_mem _ hstmem
            have hxnotin : x ∉ sys.inputIds := fun hmem => hnd3.2.2 hxst hmem
            have hsd : (setFromData simR sys.inputs
                (sys.inputs.map (fun p => sim1.σ p.1 % 2 ^ p.2))).σ x
                = simR.σ x :=
              setFromData_notMem x sys.inputs _ simR hxnotin
            rw [hsd]
            have hsim1 : sim1.σ x = sim.σ x := by
              apply randomize_inputs_untouched h1 x
              · intro hmem
                exact hxnotin (hwrites x (Or.inl hmem))
              · intro hmem
                exact hxnotin (hwrites x (Or.inr hmem))
            rw [hsim1, ← hsx, ← hsw]
            exact hag st hstmem
          · have hmem : (x, w) ∈ sys.inputs := by simpa using hind
            have hsd := setFromData_map (fun p => sim1.σ p.1 % 2 ^ p.2)
              sys.inputs simR hfstnd (x, w) hmem
            rw [hsd]
            rw [Nat.mod_mod_of_dvd _ dvd_rfl]
        refine ⟨?_, ?_⟩
        · have hlen := (ih rng1 (Sim.step sys sim1)
            (Sim.step sys (redriveFrom sys simR (inputRead sys sim1 ++ rest) 0))
            rest h2 ?_).1
          · rw [List.length_append, hreadlen, hlen]
            ring
          · intro st hstm
            rw [step_state sys sim1 hstm hnd3.1,
              step_state sys _ hstm hnd3.1]
            rw [evalE_congr hag0 st.next (hnext st hstm)]
        · intro j hj
          match j with
          | 0 =>
            exact ⟨rng, sim, rng1, sim1, ws1, rfl, h1, hag0⟩
          | j + 1 =>
            have hstep : stAgree sys (Sim.step sys sim1)
                (Sim.step sys (redriveFrom sys simR
                  (inputRead sys sim1 ++ rest) 0)) := by
              intro st hstm
              rw [step_state sys sim1 hstm hnd3.1,
                step_state sys _ hstm hnd3.1]
              rw [evalE_congr hag0 st.next (hnext st hstm)]
            obtain ⟨rngj, simj, rng2, sim2, ws2, htraj, hrand, hagj⟩ :=
              (ih rng1 (Sim.step sys sim1) _ rest h2 hstep).2 j (by omega)
            refine ⟨rngj, simj, rng2, sim2, ws2, ?_, hrand, ?_⟩
            · rw [trajSim, h1]
              dsimp only
              exact htraj
            · rw [redriveFrom_shift sys simR _ rest hreadlen j, ← h0eq]
              exact hagj

theorem trajSim_snoc (ctx : Context) (sys : TransitionSystem)
    (constraints : List ConstraintCluster) (unconstrained : List Nat)
    (fuel : Nat) :
    ∀ (k : Nat) (rng0 : Rng) (sim0 : Sim) {rng : Rng} {sim : Sim}
      {rng1 : Rng} {sim1 : Sim} {ws : List (Nat × Nat)},
      trajSim ctx sys constraints unconstrained fuel k rng0 sim0
        = some (rng, sim) →
      randomize_inputs ctx rng constraints unconstrained sim fuel
        = some (.ok (rng1, sim1, ws)) →
      trajSim ctx sys constraints unconstrained fuel (k + 1) rng0 sim0
        = some (rng1, Sim.step sys sim1) := by
  intro k
  induction k with
  | zero =>
    intro rng0 sim0 rng sim rng1 sim1 ws ht hr
    rw [trajSim] at ht
    cases ht
    rw [trajSim, hr]
    dsimp only
    rw [trajSim]
  | succ k ih =>
    intro rng0 sim0 rng sim rng1 sim1 ws ht hr
    rw [trajSim] at ht
    rw [trajSim]
    match h1 : randomize_inputs ctx rng0 constraints unconstrained sim0 fuel with
    | none => rw [h1] at ht; cases ht
    | some (.error m) => rw [h1] at ht; cases ht
    | some (.ok (rngA, simA, wsA)) =>
      rw [h1] at ht
      dsimp only at ht
      dsimp only
      exact ih rngA (Sim.step sys simA) ht hr

theorem rwLoop_ok (ctx : Context) (sys : TransitionSystem)
    (constraints : List ConstraintCluster) (unconstrained : List Nat)
    (fuel : Nat) :
    ∀ (n : Nat) (rng : Rng) (sim : Sim) (acc : List Nat) {out : List Nat},
      rwLoop ctx sys constraints unconstrained fuel n rng sim acc
        = some (.ok out) →
      ∃ t, trajData ctx sys constraints unconstrained fuel n rng sim
        = some t ∧ out = acc ++ t := by
  intro n
  induction n with
  | zero =>
    intro rng sim acc out h
    rw [rwLoop] at h
    cases h
    exact ⟨[], rfl, by simp⟩
  | succ n ih =>
    intro rng sim acc out h
    rw [rwLoop] at h
    match h1 : randomize_inputs ctx rng constraints unconstrained sim fuel with
    | none => rw [h1] at h; cases h
    | some (.error m) => rw [h1] at h; dsimp only at h; simp at h
    | some (.ok (rng1, sim1, ws1)) =>
      rw [h1] at h
      dsimp only at h
      obtain ⟨t', ht', hout⟩ :=
        ih rng1 (Sim.step sys sim1) (acc ++ inputRead sys sim1) h
      refine ⟨inputRead sys sim1 ++ t', ?_, ?_⟩
      · rw [trajData, h1]
        dsimp only
        rw [ht']
      · rw [hout, List.append_assoc]

theorem record_witness_ok {ctx : Context} {sys : TransitionSystem}
    {constraints : List ConstraintCluster} {unconstrained : List Nat}
    {bad_states : List Expr} {sim : Sim} {rng : Rng} {k : Nat}
    {bads : List Nat} {fuel : Nat} {wit : Witness}
    (h : record_witness ctx sys constraints unconstrained bad_states sim rng
      k bads fuel = some (.ok wit)) :
    ∃ t, trajData ctx sys constraints unconstrained fuel (k + 1) rng sim
      = some t ∧ wit = ⟨t, stateRead sys sim, k, bads⟩ := by
  rw [record_witness] at h
  match h1 : rwLoop ctx sys constraints unconstrained fuel (k + 1) rng sim [] with
  | none => rw [h1] at h; cases h
  | some (.error m) => rw [h1] at h; dsimp only at h; simp at h
  | some (.ok input_data) =>
    rw [h1] at h
    dsimp only at h
    obtain ⟨t, ht, hdata⟩ :=
      rwLoop_ok ctx sys constraints unconstrained fuel (k + 1) rng sim [] h1
    cases h
    refine ⟨t, ht, ?_⟩
    rw [hdata]
    simp

theorem stAgree_redriveInit (sys : TransitionSystem) (sim : Sim)
    (hw : ∀ st ∈ sys.states, 1 ≤ st.width ∧ st.width ≤ 64)
    (hnd : sys.stateIds.Nodup) (wit : Witness)
    (hsi : wit.state_init = stateRead sys sim) :
    stAgree sys sim (redriveInit sys wit) := by
  intro st hst
  rw [redriveInit, hsi, stateRead_eq sys sim hw]
  have hdata : sys.states.map (fun st => sim.σ st.symbol % 2 ^ st.width)
      = (sys.states.map (fun st => (st.symbol, st.width))).map
        (fun p => sim.σ p.1 % 2 ^ p.2) := by
    rw [List.map_map]
    rfl
  rw [hdata]
  have hfnd : ((sys.states.map (fun st => (st.symbol, st.width))).map
      Prod.fst).Nodup := by
    rw [List.map_map]
    exact hnd
  have hval := setFromData_map (fun p => sim.σ p.1 % 2 ^ p.2)
    (sys.states.map (fun st => (st.symbol, st.width))) ⟨fun _ => 0⟩ hfnd
    (st.symbol, st.width) (List.mem_map_of_mem _ hst)
  rw [hval, Nat.mod_mod_of_dvd _ dvd_rfl]

theorem episodeCycles_sat (ctx : Context) (sys : TransitionSystem)
    (constraints : List ConstraintCluster) (unconstrained : List Nat)
    (bad_states : List Expr) (opts : RandomOptions) (start_state : Sim)
    (rng_start : Rng) (fuel : Nat) :
    ∀ (rem k : Nat) (rng : Rng) (sim : Sim) (cc : Nat) {wit : Witness}
      {outs : List String},
      trajSim ctx sys constraints unconstrained fuel k rng_start start_state
        = some (rng, sim) →
      episodeCycles ctx sys constraints unconstrained bad_states opts
        start_state rng_start fuel rem k rng sim cc
        = .finished (some (.ok (.Sat wit, outs))) →
      ∃ j rngj simj rng1 sim1 ws,
        trajSim ctx sys constraints unconstrained fuel j rng_start start_state
          = some (rngj, simj) ∧
        randomize_inputs ctx rngj constraints unconstrained simj fuel
          = some (.ok (rng1, sim1, ws)) ∧
        check_for_bad_states bad_states sim1 ≠ [] ∧
        record_witness ctx sys constraints unconstrained bad_states
          start_state rng_start j (check_for_bad_states bad_states sim1) fuel
          = some (.ok wit) ∧
        outs = [] := by
  intro rem
  induction rem with
  | zero =>
    intro k rng sim cc wit outs htraj h
    rw [episodeCycles] at h
    match h1 : randomize_inputs ctx rng constraints unconstrained sim fuel with
    | none => rw [h1] at h; cases h
    | some (.error m) => rw [h1] at h; dsimp only at h; simp at h
    | some (.ok (rng1, sim1, ws1)) =>
      rw [h1] at h
      dsimp only at h
      by_cases hb : (check_for_bad_states bad_states sim1).isEmpty = true
      · rw [if_pos hb] at h
        split at h
        · simp at h
        · cases h
      · rw [if_neg hb] at h
        match h2 : record_witness ctx sys constraints unconstrained bad_states
            start_state rng_start k (check_for_bad_states bad_states sim1)
            fuel with
        | none => rw [h2] at h; cases h
        | some (.error m) => rw [h2] at h; dsimp only at h; simp at h
        | some (.ok wit2) =>
          rw [h2] at h
          dsimp only at h
          injection h with h'
          injection h' with h''
          injection h'' with h3
          injection h3 with h4 h5
          injection h4 with h6
          exact ⟨k, rng, sim, rng1, sim1, ws1, htraj, h1,
            by simpa using hb, h6 ▸ h2, h5.symm⟩
  | succ r ih =>
    intro k rng sim cc wit outs htraj h
    rw [episodeCycles] at h
    match h1 : randomize_inputs ctx rng constraints unconstrained sim fuel with
    | none => rw [h1] at h; cases h
    | some (.error m) => rw [h1] at h; dsimp only at h; simp at h
    | some (.ok (rng1, sim1, ws1)) =>
      rw [h1] at h
      dsimp only at h
      by_cases hb : (check_for_bad_states bad_states sim1).isEmpty = true
      · rw [if_pos hb] at h
        split at h
        · simp at h
        · exact ih (k + 1) rng1 (Sim.step sys sim1) (cc + 1)
            (trajSim_snoc ctx sys constraints unconstrained fuel k rng_start
              start_state htraj h1) h
      · rw [if_neg hb] at h
        match h2 : record_witness ctx sys constraints unconstrained bad_states
            start_state rng_start k (check_for_bad_states bad_states sim1)
            fuel with
        | none => rw [h2] at h; cases h
        | some (.error m) => rw [h2] at h; dsimp only at h; simp at h
        | some (.ok wit2) =>
          rw [h2] at h
          dsimp only at h
          injection h with h'
          injection h' with h''
          injection h'' with h3
          injection h3 with h4 h5
          injection h4 with h6
          exact ⟨k, rng, sim, rng1, sim1, ws1, htraj, h1,
            by simpa using hb, h6 ▸ h2, h5.symm⟩

theorem episodeLoop_sat (ctx : Context) (sys : TransitionSystem)
    (constraints : List ConstraintCluster) (unconstrained : List Nat)
    (bad_states : List Expr) (opts : RandomOptions) (start_state : Sim)
    (fuel : Nat) :
    ∀ (efuel : Nat) (rng : Rng) (cc : Nat) {wit : Witness}
      {outs : List String},
      episodeLoop ctx sys constraints unconstrained bad_states opts
        start_state fuel efuel rng cc = some (.ok (.Sat wit, outs)) →
      ∃ rs j rngj simj rng1 sim1 ws,
        trajSim ctx sys constraints unconstrained fuel j rs start_state
          = some (rngj, simj) ∧
        randomize_inputs ctx rngj constraints unconstrained simj fuel
          = some (.ok (rng1, sim1, ws)) ∧
        check_for_bad_states bad_states sim1 ≠ [] ∧
        record_witness ctx sys constraints unconstrained bad_states
          start_state rs j (check_for_bad_states bad_states sim1) fuel
          = some (.ok wit) ∧
        outs = [] := by
  intro efuel
  induction efuel with
  | zero => intro rng cc wit outs h; cases h
  | succ efuel ih =>
    intro rng cc wit outs h
    rw [episodeLoop] at h
    match h1 : episodeCycles ctx sys constraints unconstrained bad_states opts
        start_state (sample_k_max rng opts).2 fuel (sample_k_max rng opts).1 0
        (sample_k_max rng opts).2 start_state cc with
    | .finished r =>
      rw [h1] at h
      dsimp only at h
      rw [h] at h1
      obtain ⟨j, rngj, simj, rng1, sim1, ws, a1, a2, a3, a4, a5⟩ :=
        episodeCycles_sat ctx sys constraints unconstrained bad_states opts
          start_state (sample_k_max rng opts).2 fuel (sample_k_max rng opts).1
          0 (sample_k_max rng opts).2 start_state cc rfl h1
      exact ⟨(sample_k_max rng opts).2, j, rngj, simj, rng1, sim1, ws,
        a1, a2, a3, a4, a5⟩
    | .goOn rng1 cc1 =>
      rw [h1] at h
      dsimp only at h
      exact ih rng1 cc1 h

/-- C2: witness replay consistency.  For every `Sat` outcome of
`random_testing` the returned witness was produced by a replay that
repeats the detecting episode draw for draw (the replay starts from the
restored snapshot with the RNG cloned at episode start, so its
`randomize_inputs` calls walk the same trajectory); consequently
re-driving a fresh simulator with the witness's `state_init` and
`input_data` reaches, at cycle `k`, a state where the bad-state check
returns exactly `failed_safety` — a non-empty list — and every predicate
indexed by `failed_safety` evaluates to 1.  Hypotheses: declared widths
lie in `[1, 64]`, declared symbols are distinct, and the next-state, bad
and cone-of-influence expressions mention only declared symbols. -/
theorem witness_replay_consistency (coiInit coiComb : Expr → List Nat)
    (ctx : Context) (sys : TransitionSystem) (opts : RandomOptions)
    (g : Nat → Nat) (fuel efuel : Nat)
    (hw_in : ∀ p ∈ sys.inputs, 1 ≤ p.2 ∧ p.2 ≤ 64)
    (hw_st : ∀ st ∈ sys.states, 1 ≤ st.width ∧ st.width ≤ 64)
    (hnodup : (sys.stateIds ++ sys.inputIds).Nodup)
    (hnext : ∀ st ∈ sys.states, symWidthOk sys st.next = true)
    (hbads : ∀ b ∈ sys.bad_states, symWidthOk sys b = true)
    (hcoi : ∀ sub ∈ sys.constraints.flatMap split_conjunction,
      ∀ x ∈ coiComb sub, x ∈ sys.stateIds ∨ x ∈ sys.inputIds)
    {wit : Witness} {outs : List String}
    (hsat : random_testing coiInit coiComb ctx sys opts g fuel efuel
      = some (.ok (.Sat wit, outs))) :
    wit.failed_safety ≠ [] ∧
    check_for_bad_states sys.bad_states (redriveAt sys wit wit.k)
      = wit.failed_safety ∧
    ∀ b ∈ wit.failed_safety,
      evalE (redriveAt sys wit wit.k).σ
        (sys.bad_states.getD b (Expr.lit 0 1)) = 1 := by
  have hsat' : episodeLoop ctx sys
      (analyze_constraints coiInit coiComb sys false)
      (unconstrainedInputs coiInit coiComb sys) sys.bad_states opts
      ⟨fun _ => 0⟩ fuel efuel ⟨g, 0⟩ 0 = some (.ok (.Sat wit, outs)) := hsat
  obtain ⟨rs, j, rngj, simj, rng1, sim1, ws, htraj, hrand, hbne, hrec, houts⟩ :=
    episodeLoop_sat ctx sys (analyze_constraints coiInit coiComb sys false)
      (unconstrainedInputs coiInit coiComb sys) sys.bad_states opts
      ⟨fun _ => 0⟩ fuel efuel ⟨g, 0⟩ 0 hsat'
  obtain ⟨t, ht, hwit⟩ := record_witness_ok hrec
  have hwrites : ∀ x,
      x ∈ (analyze_constraints coiInit coiComb sys false).flatMap
        (fun c => c.inputs) ∨
      x ∈ unconstrainedInputs coiInit coiComb sys → x ∈ sys.inputIds := by
    intro x hx
    rcases hx with hx | hx
    · rw [List.mem_flatMap] at hx
      obtain ⟨c, hc, hxc⟩ := hx
      exact analyze_inputs_subset coiInit coiComb sys hcoi c hc x hxc
    · exact (List.mem_filter.mp hx).1
  have hag : stAgree sys (⟨fun _ => 0⟩ : Sim) (redriveInit sys wit) :=
    stAgree_redriveInit sys ⟨fun _ => 0⟩ hw_st
      (List.nodup_append.mp hnodup).1 wit (by rw [hwit])
  have hmain := replay_redrive ctx sys
    (analyze_constraints coiInit coiComb sys false)
    (unconstrainedInputs coiInit coiComb sys) fuel hw_in hnodup hnext hwrites
    (j + 1) rs ⟨fun _ => 0⟩ (redriveInit sys wit) t ht hag
  obtain ⟨rngj', simj', rng1', sim1', ws', htraj', hrand', hagree⟩ :=
    hmain.2 j (by omega)
  rw [htraj] at htraj'
  have hp := Option.some.inj htraj'
  injection hp with hp1 hp2
  subst hp1
  subst hp2
  rw [hrand] at hrand'
  have hq := Option.some.inj hrand'
  have hq2 := Except.ok.inj hq
  injection hq2 with hq3 hq4
  injection hq4 with hq5 hq6
  subst hq5
  have hk : wit.k = j := by rw [hwit]
  have hdat : wit.input_data = t := by rw [hwit]
  have hfs : wit.failed_safety = check_for_bad_states sys.bad_states sim1 := by
    rw [hwit]
  have hAt : redriveAt sys wit wit.k
      = redriveFrom sys (redriveInit sys wit) t j := by
    rw [redriveAt, hdat, hk]
  refine ⟨?_, ?_, ?_⟩
  · rw [hfs]
    exact hbne
  · rw [hAt, hfs]
    exact (check_congr hagree sys.bad_states hbads).symm
  · intro b hbmem
    rw [hAt]
    apply check_mem_eval
    rw [← check_congr hagree sys.bad_states hbads, ← hfs]
    exact hbmem

/-- Closed instance of C2's replay theorem: on the one-input system
`wsysC2` with the constant draw stream the search returns `Sat` with
witness `witC2`, and re-driving a fresh simulator with its `state_init`
and `input_data` flags exactly bad predicate 0 at cycle 0. -/
theorem witness_replay_consistency_witness :
    witC2.failed_safety ≠ [] ∧
    check_for_bad_states wsysC2.bad_states (redriveAt wsysC2 witC2 witC2.k)
      = witC2.failed_safety ∧
    ∀ b ∈ witC2.failed_safety,
      evalE (redriveAt wsysC2 witC2 witC2.k).σ
        (wsysC2.bad_states.getD b (Expr.lit 0 1)) = 1 :=
  witness_replay_consistency freeSyms freeSyms wctxC2 wsysC2 woptsC2
    (fun _ => 1) 1 1 (by decide) (by decide) (by decide) (by decide)
    (by decide) (by decide) rfl

/-- Witness for C10 at `sys10` with the all-ones draw stream: the
rejection round is accepted immediately and the accepted writes hit
inputs 0, 1, 2 exactly once. -/
theorem input_sampling_partition_witness :
    ∃ rng2 sim2 ws,
      randomize_inputs ⟨fun _ => some 1⟩ ⟨fun _ => 1, 0⟩
          (analyze_constraints freeSyms freeSyms sys10 false)
          (unconstrainedInputs freeSyms freeSyms sys10) ⟨fun _ => 0⟩ 1
        = some (.ok (rng2, sim2, ws)) ∧
      (ws.map Prod.fst).Perm sys10.inputIds := by
  refine ⟨_, _, _, rfl, ?_⟩
  exact (input_sampling_partition freeSyms freeSyms ⟨fun _ => some 1⟩ sys10
    (by decide) (by decide)).2.2 1 ⟨fun _ => 1, 0⟩ ⟨fun _ => 0⟩ _ _ _ rfl

end Patron
